import Mathlib

/-!
Verification of the `pbjson-build` code-generation pipeline.

The development shallowly embeds `src/pbjson-build/src/lib.rs` (the `Builder`
struct, its configuration methods, and `Builder::generate`).  The crate's
private modules (`descriptor`, `message`, `resolver`, `generator`) are not in
the source tree; where a claim depends on them their behaviour is modelled
from the specification, and each such definition carries a doc comment saying
so.  Functions whose internals are irrelevant to a claim (the per-type text
generators) are taken as parameters, so the theorems hold for every
implementation of them.
-/

namespace Pbjson

/-- A dotted path splitter over characters.  `splitDot` cuts a character list
at every `'.'`; it always returns a non-empty list of (possibly empty)
groups, mirroring splitting a string on the separator `.`. -/
def splitDot : List Char → List (List Char)
  | [] => [[]]
  | c :: rest =>
    match splitDot rest with
    | [] => [[]]
    | g :: gs => if c = '.' then [] :: g :: gs else (c :: g) :: gs

/-- Modelled from the spec: the `descriptor` module (absent from `src/`)
parses a filter string such as `".foo.bar"` into its identifier components,
component boundaries being the dots; empty components (for instance the one
produced by the leading dot) are discarded. -/
def parseFilter (s : String) : List String :=
  ((splitDot s.data).filter (fun g => !g.isEmpty)).map (fun g => String.mk g)

/-- A fully-qualified type path: the declaring package's components followed
by the (possibly nested) type-name components. -/
structure TypePath where
  package : List String
  names : List String
  deriving DecidableEq, Repr

/-- All components of the qualified name, package first. -/
def TypePath.components (t : TypePath) : List String :=
  t.package ++ t.names

/-- Modelled from the spec: the `descriptor` module's `prefix_match` (absent
from `src/`) checks whether the filter's components are a leading
subsequence of the path's components, matched component-by-component, and
returns the remaining components on success. -/
def TypePath.prefix_match (t : TypePath) (pre : String) : Option (List String) :=
  let comps := parseFilter pre
  if comps.isPrefixOf t.components then some (t.components.drop comps.length)
  else none

/-- Renders a path back to its dotted string form with a leading dot,
e.g. `.foo.bar.Msg`. -/
def renderPath (comps : List String) : List Char :=
  comps.foldr (fun c acc => '.' :: (c.data ++ acc)) []

/-- The dotted string naming a path, as it would appear in a filter list. -/
def TypePath.render (t : TypePath) : String :=
  String.mk (renderPath t.components)

/-- A component is a valid identifier when it is non-empty and contains no
dot. -/
def ValidComponent (s : String) : Prop :=
  s ≠ "" ∧ '.' ∉ s.data

instance (s : String) : Decidable (ValidComponent s) := by
  unfold ValidComponent; infer_instance

/-- Every component of the path is a valid identifier. -/
def ValidPath (t : TypePath) : Prop :=
  ∀ c ∈ t.components, ValidComponent c

instance (t : TypePath) : Decidable (ValidPath t) := by
  unfold ValidPath; infer_instance

/-- A registered descriptor is either an enum or a message; the payload types
are parameters because the claims below do not depend on their structure. -/
inductive Descriptor (E M : Type) where
  | enum (e : E)
  | message (m : M)
  deriving DecidableEq, Repr

/-- The registry: an insertion-ordered list of qualified names with their
descriptors, as iterated by `DescriptorSet::iter`. -/
abbrev DescriptorSet (E M : Type) := List (TypePath × Descriptor E M)

/-- The `Builder` struct of `lib.rs`, field for field.  `out_dir` holds a
path string; `enum_prefixes_to_keep` is a `HashSet` used only through
membership, modelled as a list. -/
structure Builder (E M : Type) where
  descriptors : DescriptorSet E M := []
  exclude : List String := []
  out_dir : Option String := none
  extern_paths : List (String × String) := []
  retain_enum_prefix : Bool := false
  ignore_unknown_fields : Bool := false
  btree_map_paths : List String := []
  emit_fields : Bool := false
  emit_enum_fields : Bool := false
  emit_repeated : Bool := false
  emit_empty_string : Bool := false
  use_integers_for_enums : Bool := false
  preserve_proto_field_names : Bool := false
  strip_enum_vairant_prefix_and_to_lowercase : Bool := false
  enum_prefixes_to_keep : List String := []

/-- `Builder::extern_path`: appends the pair to the override table. -/
def Builder.extern_path (b : Builder E M) (proto_path rust_path : String) :
    Builder E M :=
  { b with extern_paths := b.extern_paths ++ [(proto_path, rust_path)] }

/-- `Builder::exclude`: appends prefixes to the exclusion list. -/
def Builder.excludeAdd (b : Builder E M) (prefixes : List String) :
    Builder E M :=
  { b with exclude := b.exclude ++ prefixes }

/-- The per-package `Resolver` as constructed inside `Builder::generate`. -/
structure Resolver where
  extern_paths : List (String × String)
  package : List String
  retain_enum_prefix : Bool
  strip_enum_vairant_prefix_and_to_lowercase : Bool
  enum_prefixes_to_keep : List String
  deriving DecidableEq, Repr

/-- `Resolver::new` with the argument order used in `Builder::generate`. -/
def Resolver.new (extern_paths : List (String × String)) (package : List String)
    (retain : Bool) (strip : Bool) (keep : List String) : Resolver :=
  ⟨extern_paths, package, retain, strip, keep⟩

/-- The functions of the private `generator` and `message` modules that
`Builder::generate` calls.  They are parameters: every theorem below holds
for any implementation.  A generator returns the text it appends to the
package's writer, or an error string. -/
structure GenFns (E M R : Type) where
  generate_enum : Resolver → TypePath → E → Bool → Except String String
  resolve_message : DescriptorSet E M → M → Option R
  generate_message : Resolver → R → Bool → List String → Bool → Bool → Bool →
    Bool → Bool → Except String String

/-- The filter predicate of `Builder::generate`: a type is kept when some
include prefix matches it and no exclude prefix matches it. -/
def includeFilter (b : Builder E M) (prefixes : List String) (t : TypePath) :
    Bool :=
  let excluded := b.exclude.any (fun p => (t.prefix_match p).isSome)
  let included := prefixes.any (fun p => (t.prefix_match p).isSome)
  included && !excluded

/-- The filtered, ordered list of registry entries iterated by
`Builder::generate`. -/
def includedTypes (b : Builder E M) (prefixes : List String) :
    List (TypePath × Descriptor E M) :=
  b.descriptors.filter (fun td => includeFilter b prefixes td.1)

/-- The body of the per-type `match descriptor` in `Builder::generate`:
construct the resolver scoped to the type's package, then dispatch on the
descriptor kind; a message whose `resolve_message` is `None` contributes
nothing. -/
def genChunk (g : GenFns E M R) (b : Builder E M) (t : TypePath)
    (d : Descriptor E M) : Except String String :=
  let resolver := Resolver.new b.extern_paths t.package b.retain_enum_prefix
    b.strip_enum_vairant_prefix_and_to_lowercase b.enum_prefixes_to_keep
  match d with
  | .enum e => g.generate_enum resolver t e b.use_integers_for_enums
  | .message m =>
    match g.resolve_message b.descriptors m with
    | some message =>
      g.generate_message resolver message b.ignore_unknown_fields
        b.btree_map_paths b.emit_fields b.emit_enum_fields b.emit_repeated
        b.emit_empty_string b.preserve_proto_field_names
    | none => Except.ok ""

/-- One iteration of the loop in `Builder::generate`.  The accumulator holds
the `(package, writer-contents)` pairs in reverse order (head = most recent),
matching `ret.last_mut()` being the head; a new writer is requested from the
factory exactly when the head's package differs from the type's package. -/
def generateStep (g : GenFns E M R) (b : Builder E M)
    (factory : List String → Except String String)
    (ret : List (List String × String)) (td : TypePath × Descriptor E M) :
    Except String (List (List String × String)) := do
  let ret ←
    match ret with
    | (pkg, w) :: rest =>
      if pkg = td.1.package then pure ((pkg, w) :: rest)
      else do
        let w' ← factory td.1.package
        pure ((td.1.package, w') :: (pkg, w) :: rest)
    | [] => do
      let w' ← factory td.1.package
      pure [(td.1.package, w')]
  match ret with
  | (pkg, w) :: rest => do
    let chunk ← genChunk g b td.1 td.2
    pure ((pkg, w ++ chunk) :: rest)
  | [] => pure []

/-- `Builder::generate`: filter the registry, then run the writer-grouping
loop; the result is the `(package, writer)` list in creation order. -/
def Builder.generate (b : Builder E M) (g : GenFns E M R)
    (prefixes : List String)
    (factory : List String → Except String String) :
    Except String (List (List String × String)) :=
  ((includedTypes b prefixes).foldlM (generateStep g b factory) []).map
    List.reverse

/-! ### Lemmas about the path splitter -/

theorem splitDot_ne_nil (cs : List Char) : splitDot cs ≠ [] := by
  cases cs with
  | nil => simp [splitDot]
  | cons c rest =>
    simp only [splitDot]
    cases h : splitDot rest with
    | nil => simp
    | cons g gs =>
      by_cases hc : c = '.' <;> simp [hc]

theorem splitDot_dotless_append (c rest : List Char) (g : List Char)
    (gs : List (List Char)) (h : ∀ ch ∈ c, ch ≠ '.')
    (hrest : splitDot rest = g :: gs) :
    splitDot (c ++ rest) = (c ++ g) :: gs := by
  induction c with
  | nil => simpa using hrest
  | cons ch c' ih =>
    have hch : ch ≠ '.' := h ch (List.mem_cons_self _ _)
    have h' : ∀ x ∈ c', x ≠ '.' := fun x hx => h x (List.mem_cons_of_mem _ hx)
    have hstep : splitDot (c' ++ rest) = (c' ++ g) :: gs := ih h'
    show splitDot (ch :: (c' ++ rest)) = _
    simp only [splitDot, hstep, if_neg hch]
    simp

theorem splitDot_renderPath (comps : List String)
    (h : ∀ c ∈ comps, ValidComponent c) :
    splitDot (renderPath comps) = [] :: comps.map String.data := by
  induction comps with
  | nil => simp [renderPath, splitDot]
  | cons c cs ih =>
    have hc : ValidComponent c := h c (List.mem_cons_self _ _)
    have h' : ∀ x ∈ cs, ValidComponent x := fun x hx =>
      h x (List.mem_cons_of_mem _ hx)
    have hrest := ih h'
    have hdotless : ∀ ch ∈ c.data, ch ≠ '.' := by
      intro ch hch
      intro heq
      exact hc.2 (heq ▸ hch)
    have happ : splitDot (c.data ++ renderPath cs) =
        (c.data ++ []) :: cs.map String.data :=
      splitDot_dotless_append c.data (renderPath cs)
        [] (cs.map String.data) hdotless hrest
    show splitDot ('.' :: (c.data ++ renderPath cs)) = _
    simp only [splitDot, happ]
    simp

theorem parseFilter_render (t : TypePath) (h : ValidPath t) :
    parseFilter t.render = t.components := by
  unfold parseFilter TypePath.render
  have : (String.mk (renderPath t.components)).data = renderPath t.components := rfl
  rw [this, splitDot_renderPath t.components h]
  have hfilter : (([] :: t.components.map String.data).filter
      (fun g => !g.isEmpty)) = t.components.map String.data := by
    rw [List.filter_cons]
    simp only [List.isEmpty_nil, Bool.not_true, Bool.false_eq_true, if_false]
    rw [List.filter_eq_self]
    intro g hg
    obtain ⟨c, hc, rfl⟩ := List.mem_map.mp hg
    have hne := (h c hc).1
    cases hd : c.data with
    | nil => exact absurd (String.ext hd) hne
    | cons x xs => rfl
  rw [hfilter, List.map_map]
  have : String.mk ∘ String.data = id := by
    funext s
    rfl
  simp [this]

/-! ### Claim C3: component-wise prefix matching -/

/-- C3: `prefix_match` compares component-by-component, never by raw
substring: every valid path matches its own rendered dotted form
(reflexivity over equal paths), while the filter `.foo.ba`, whose last
component is a proper string prefix of the component `bar`, does not match
the type `.foo.bar.Msg`. -/
theorem prefix_match_componentwise :
    (∀ t : TypePath, ValidPath t →
      (t.prefix_match t.render).isSome = true) ∧
    (TypePath.mk ["foo"] ["bar", "Msg"]).prefix_match ".foo.ba" = none := by
  constructor
  · intro t ht
    unfold TypePath.prefix_match
    rw [parseFilter_render t ht]
    simp [List.isPrefixOf_iff_prefix]
  · decide

/-- Witness for C3 at the concrete path `.foo.bar.Msg`. -/
theorem prefix_match_componentwise_witness :
    ValidPath ⟨["foo"], ["bar", "Msg"]⟩ ∧
    ((TypePath.mk ["foo"] ["bar", "Msg"]).prefix_match
      (TypePath.render ⟨["foo"], ["bar", "Msg"]⟩)).isSome = true :=
  ⟨by decide, prefix_match_componentwise.1 ⟨["foo"], ["bar", "Msg"]⟩ (by decide)⟩

/-! ### Claim C1: include/exclude filtering -/

/-- C1: `generate` produces code for a registered type exactly when some
include prefix matches its qualified name and no exclude prefix does;
a type matching both is excluded, because the right-hand side requires
every exclude prefix to fail. -/
theorem generate_filters_include_exclude (b : Builder E M)
    (prefixes : List String) (t : TypePath) (d : Descriptor E M) :
    (t, d) ∈ includedTypes b prefixes ↔
      (t, d) ∈ b.descriptors ∧
      (∃ p ∈ prefixes, (t.prefix_match p).isSome) ∧
      (∀ e ∈ b.exclude, t.prefix_match e = none) := by
  unfold includedTypes includeFilter
  rw [List.mem_filter]
  simp only [Bool.and_eq_true, Bool.not_eq_true', List.any_eq_true,
    List.any_eq_false, Bool.not_eq_true, Option.not_isSome,
    Option.isNone_iff_eq_none, and_assoc]

/-! ### Claim C7: map-entry messages are skipped, not errors -/

/-- C7: inside `generate`, a message descriptor on which `resolve_message`
returns `None` contributes no code and is not an error, while a message on
which it returns `Some` is generated by `generate_message` with the
builder's configuration. -/
theorem genChunk_resolve_message (g : GenFns E M R) (b : Builder E M)
    (t : TypePath) (m : M) :
    (g.resolve_message b.descriptors m = none →
      genChunk g b t (Descriptor.message m) = Except.ok "") ∧
    (∀ r, g.resolve_message b.descriptors m = some r →
      genChunk g b t (Descriptor.message m) =
        g.generate_message
          (Resolver.new b.extern_paths t.package b.retain_enum_prefix
            b.strip_enum_vairant_prefix_and_to_lowercase
            b.enum_prefixes_to_keep)
          r b.ignore_unknown_fields b.btree_map_paths b.emit_fields
          b.emit_enum_fields b.emit_repeated b.emit_empty_string
          b.preserve_proto_field_names) := by
  constructor
  · intro h
    simp [genChunk, h]
  · intro r h
    simp [genChunk, h]

/-- A trivial generator-function bundle over unit payloads, used to
instantiate theorems at concrete inputs. -/
def unitGenFns (res : Option Unit) : GenFns Unit Unit Unit where
  generate_enum := fun _ _ _ _ => Except.ok "E;"
  resolve_message := fun _ _ => res
  generate_message := fun _ _ _ _ _ _ _ _ _ => Except.ok "M;"

/-- Witness for C7: with a `resolve_message` that returns `none`, the chunk
for a message is empty and successful. -/
theorem genChunk_resolve_message_witness :
    genChunk (unitGenFns none) { descriptors := [] } ⟨["a"], ["B"]⟩
      (Descriptor.message ()) = Except.ok "" :=
  (genChunk_resolve_message (unitGenFns none) { descriptors := [] }
    ⟨["a"], ["B"]⟩ ()).1 rfl

/-! ### Claim C8: extern_path ordering and first-match-wins resolution -/

/-- Modelled from the spec: the `resolver` module (absent from `src/`)
checks the override table in registration order; the first registered pair
whose proto path is a component-wise prefix of the referenced name wins,
yielding its rust path and the unmatched remainder. -/
def resolve_override (extern_paths : List (String × String)) (t : TypePath) :
    Option (String × List String) :=
  extern_paths.findSome? (fun pr =>
    match t.prefix_match pr.1 with
    | some rest => some (pr.2, rest)
    | none => none)

/-- C8: `Builder::extern_path` appends the new pair after all previously
registered pairs, and resolution through the table is first-match-wins: if
nothing before the pair `(p, r)` matches and `p` matches, resolution
returns `r`, whatever comes later in the table. -/
theorem extern_path_appends_first_match_wins (b : Builder E M)
    (pp rp : String) (l₁ l₂ : List (String × String)) (p r : String)
    (t : TypePath) (rest : List String)
    (h₁ : ∀ q ∈ l₁, t.prefix_match q.1 = none)
    (h₂ : t.prefix_match p = some rest) :
    (b.extern_path pp rp).extern_paths = b.extern_paths ++ [(pp, rp)] ∧
    resolve_override (l₁ ++ (p, r) :: l₂) t = some (r, rest) := by
  refine ⟨rfl, ?_⟩
  induction l₁ with
  | nil => simp [resolve_override, List.findSome?_cons, h₂]
  | cons q l₁ ih =>
    have hq : t.prefix_match q.1 = none := h₁ q (List.mem_cons_self _ _)
    have h₁' : ∀ x ∈ l₁, t.prefix_match x.1 = none := fun x hx =>
      h₁ x (List.mem_cons_of_mem _ hx)
    have := ih h₁'
    simpa [resolve_override, List.findSome?_cons, hq] using this

/-- Witness for C8: with the table `[(".x", "X"), (".a", "A"), (".a.b", "B")]`
the reference `.a.b.C` resolves through the first matching entry `".a"`,
registered before the longer match `".a.b"`. -/
theorem extern_path_appends_first_match_wins_witness :
    ((Builder.extern_path (M := Unit) (E := Unit) {} ".x" "X").extern_paths
      = [(".x", "X")]) ∧
    resolve_override [(".x", "X"), (".a", "A"), (".a.b", "B")]
      ⟨["a", "b"], ["C"]⟩ = some ("A", ["b", "C"]) := by
  refine ⟨?_, ?_⟩
  · exact (extern_path_appends_first_match_wins (E := Unit) (M := Unit) {}
      ".x" "X" [(".x", "X")] [(".a.b", "B")] ".a" "A" ⟨["a", "b"], ["C"]⟩
      ["b", "C"] (by decide) (by decide)).1
  · exact (extern_path_appends_first_match_wins (E := Unit) (M := Unit) {}
      ".x" "X" [(".x", "X")] [(".a.b", "B")] ".a" "A" ⟨["a", "b"], ["C"]⟩
      ["b", "C"] (by decide) (by decide)).2

/-! ### Claim C9: determinism of generate -/

/-- C9: `generate` is a function of the registry contents, the
configuration, and the include prefixes alone: two builders agreeing on
every field that `generate` reads (everything except `out_dir`) produce
identical output. -/
theorem generate_deterministic (g : GenFns E M R) (prefixes : List String)
    (factory : List String → Except String String) (b₁ b₂ : Builder E M)
    (h₁ : b₁.descriptors = b₂.descriptors)
    (h₂ : b₁.exclude = b₂.exclude)
    (h₃ : b₁.extern_paths = b₂.extern_paths)
    (h₄ : b₁.retain_enum_prefix = b₂.retain_enum_prefix)
    (h₅ : b₁.ignore_unknown_fields = b₂.ignore_unknown_fields)
    (h₆ : b₁.btree_map_paths = b₂.btree_map_paths)
    (h₇ : b₁.emit_fields = b₂.emit_fields)
    (h₈ : b₁.emit_enum_fields = b₂.emit_enum_fields)
    (h₉ : b₁.emit_repeated = b₂.emit_repeated)
    (h₁₀ : b₁.emit_empty_string = b₂.emit_empty_string)
    (h₁₁ : b₁.use_integers_for_enums = b₂.use_integers_for_enums)
    (h₁₂ : b₁.preserve_proto_field_names = b₂.preserve_proto_field_names)
    (h₁₃ : b₁.strip_enum_vairant_prefix_and_to_lowercase =
      b₂.strip_enum_vairant_prefix_and_to_lowercase)
    (h₁₄ : b₁.enum_prefixes_to_keep = b₂.enum_prefixes_to_keep) :
    b₁.generate g prefixes factory = b₂.generate g prefixes factory := by
  cases b₁
  cases b₂
  simp_all
  rfl

/-- Witness for C9: two builders differing only in `out_dir` generate the
same output. -/
theorem generate_deterministic_witness :
    Builder.generate (E := Unit) (M := Unit)
      { descriptors := [(⟨["a"], ["B"]⟩, Descriptor.enum ())],
        out_dir := some "x" }
      (unitGenFns none) [".a"] (fun _ => Except.ok "") =
    Builder.generate (E := Unit) (M := Unit)
      { descriptors := [(⟨["a"], ["B"]⟩, Descriptor.enum ())],
        out_dir := none }
      (unitGenFns none) [".a"] (fun _ => Except.ok "") :=
  generate_deterministic (unitGenFns none) [".a"] (fun _ => Except.ok "")
    _ _ rfl rfl rfl rfl rfl rfl rfl rfl rfl rfl rfl rfl rfl rfl

/-! ### Claim C5: failed registration leaves the registry untouched -/

/-- The decoded form of a serialized `FileDescriptorSet`: a list of file
records of some payload type `F`. -/
structure FileDescriptorSet (F : Type) where
  file : List F

/-- Modelled from the spec: `DescriptorSet::register_encoded` (descriptor
module absent from `src/`) decodes the whole byte buffer first and only
then registers the decoded files, so a decode failure aborts registration
before any mutation; the wire-format decoder and the per-file registration
are parameters (they belong to the external schema layer). -/
def register_encoded (decode : List Nat → Except String (FileDescriptorSet F))
    (regFile : DescriptorSet E M → F → DescriptorSet E M)
    (ds : DescriptorSet E M) (bytes : List Nat) :
    Except String Unit × DescriptorSet E M :=
  match decode bytes with
  | .error e => (.error e, ds)
  | .ok fds => (.ok (), fds.file.foldl regFile ds)

/-- `Builder::register_descriptors`: delegates to `register_encoded` on the
builder's descriptor set and reports its error, the builder carrying the
possibly-updated registry. -/
def Builder.register_descriptors
    (decode : List Nat → Except String (FileDescriptorSet F))
    (regFile : DescriptorSet E M → F → DescriptorSet E M)
    (b : Builder E M) (bytes : List Nat) :
    Except String Unit × Builder E M :=
  let res := register_encoded decode regFile b.descriptors bytes
  (res.1, { b with descriptors := res.2 })

/-- C5: when the byte buffer does not decode, `register_descriptors` returns
the decode error and the builder — its registry included — is exactly as it
was before the call. -/
theorem register_descriptors_error_no_mutation
    (decode : List Nat → Except String (FileDescriptorSet F))
    (regFile : DescriptorSet E M → F → DescriptorSet E M)
    (b : Builder E M) (bytes : List Nat) (e : String)
    (h : decode bytes = .error e) :
    Builder.register_descriptors decode regFile b bytes = (.error e, b) := by
  simp [Builder.register_descriptors, register_encoded, h]

/-- Witness for C5: a decoder rejecting every buffer leaves a concrete
builder unchanged. -/
theorem register_descriptors_error_no_mutation_witness :
    Builder.register_descriptors (F := Unit) (E := Unit) (M := Unit)
      (fun _ => Except.error "malformed") (fun ds _ => ds)
      { descriptors := [(⟨["a"], ["B"]⟩, Descriptor.enum ())] } [0, 1] =
      (Except.error "malformed",
        { descriptors := [(⟨["a"], ["B"]⟩, Descriptor.enum ())] }) :=
  register_descriptors_error_no_mutation _ _ _ _ "malformed" rfl

/-! ### Claim C10: generate does not mutate the builder -/

/-- One loop iteration of `generate` with the borrowed builder threaded
through the state, mirroring that the Rust method only holds `&self`:
every read goes through the state's builder component. -/
def generateStepMut (g : GenFns E M R)
    (factory : List String → Except String String)
    (st : List (List String × String) × Builder E M)
    (td : TypePath × Descriptor E M) :
    Except String (List (List String × String) × Builder E M) :=
  (generateStep g st.2 factory st.1 td).map (fun r => (r, st.2))

/-- `Builder::generate` with the builder state threaded explicitly; the
final state is returned next to the result. -/
def Builder.generateMut (b : Builder E M) (g : GenFns E M R)
    (prefixes : List String)
    (factory : List String → Except String String) :
    Except String (List (List String × String)) × Builder E M :=
  match (includedTypes b prefixes).foldlM (generateStepMut g factory)
      ([], b) with
  | .error e => (.error e, b)
  | .ok (ret, b') => (.ok ret.reverse, b')

theorem foldlM_generateStepMut (g : GenFns E M R)
    (factory : List String → Except String String) (b : Builder E M)
    (l : List (TypePath × Descriptor E M))
    (acc : List (List String × String)) :
    l.foldlM (generateStepMut g factory) (acc, b) =
      (l.foldlM (generateStep g b factory) acc).map (fun r => (r, b)) := by
  induction l generalizing acc with
  | nil => rfl
  | cons x l ih =>
    rw [List.foldlM_cons, List.foldlM_cons]
    unfold generateStepMut
    cases h : generateStep g b factory acc x with
    | error e =>
      simp only [h]
      rfl
    | ok r =>
      simp only [h]
      exact ih r

/-- C10: `generate` never mutates the builder: run with the builder state
threaded through every loop iteration, the final state equals the initial
builder — whether generation succeeds or fails — and the result is that of
`generate`. -/
theorem generate_no_mutation (g : GenFns E M R) (b : Builder E M)
    (prefixes : List String)
    (factory : List String → Except String String) :
    (b.generateMut g prefixes factory).2 = b ∧
    (b.generateMut g prefixes factory).1 = b.generate g prefixes factory := by
  unfold Builder.generateMut Builder.generate
  rw [foldlM_generateStepMut]
  cases h : (includedTypes b prefixes).foldlM (generateStep g b factory) []
    with
  | error e => exact ⟨rfl, rfl⟩
  | ok r => exact ⟨rfl, rfl⟩

/-! ### Claim C4: fail-fast error propagation -/

/-- C4: if, after some filtered prefix of the registry has been processed
successfully, the step for the next type fails — whether in the writer
factory or in its code generator — then `generate` returns exactly that
error: no later type is processed (the conclusion holds for every tail) and
no partial result is returned as success. -/
theorem generate_fail_fast (g : GenFns E M R) (b : Builder E M)
    (prefixes : List String)
    (factory : List String → Except String String)
    (l₁ l₂ : List (TypePath × Descriptor E M))
    (td : TypePath × Descriptor E M)
    (acc : List (List String × String)) (e : String)
    (hsplit : includedTypes b prefixes = l₁ ++ td :: l₂)
    (hok : l₁.foldlM (generateStep g b factory) [] = .ok acc)
    (herr : generateStep g b factory acc td = .error e) :
    b.generate g prefixes factory = .error e := by
  unfold Builder.generate
  rw [hsplit, List.foldlM_append, hok]
  show Except.map List.reverse
    ((td :: l₂).foldlM (generateStep g b factory) acc) = Except.error e
  rw [List.foldlM_cons, herr]
  rfl

/-- A generator bundle over numeric enum payloads whose enum generator
fails on any payload other than `0`. -/
def failGenFns : GenFns Nat Unit Unit where
  generate_enum := fun _ _ e _ =>
    if e = 0 then Except.ok "ok;" else Except.error "boom"
  resolve_message := fun _ _ => none
  generate_message := fun _ _ _ _ _ _ _ _ _ => Except.ok ""

/-- A registry with two enum types in package `a`, the second of which makes
`failGenFns` fail. -/
def failBuilder : Builder Nat Unit :=
  { descriptors := [(⟨["a"], ["A"]⟩, Descriptor.enum 0),
                    (⟨["a"], ["B"]⟩, Descriptor.enum 1)] }

/-- Witness for C4: generation over `failBuilder` stops at the failing
second type and surfaces its error. -/
theorem generate_fail_fast_witness :
    failBuilder.generate failGenFns [".a"] (fun _ => Except.ok "") =
      Except.error "boom" :=
  generate_fail_fast failGenFns failBuilder [".a"] (fun _ => Except.ok "")
    [(⟨["a"], ["A"]⟩, Descriptor.enum 0)] []
    (⟨["a"], ["B"]⟩, Descriptor.enum 1) [(["a"], "ok;")] "boom"
    (by decide) rfl rfl

/-! ### Claim C2: one writer per package, grouped writes -/

/-- Concatenation of the text chunks appended to one writer. -/
def strJoin : List String → String
  | [] => ""
  | s :: l => s ++ strJoin l

instance {ε α : Type} [DecidableEq ε] [DecidableEq α] :
    DecidableEq (Except ε α) := fun a b =>
  match a, b with
  | .error e, .error f =>
    if h : e = f then .isTrue (by rw [h])
    else .isFalse (fun c => h (Except.error.inj c))
  | .ok x, .ok y =>
    if h : x = y then .isTrue (by rw [h])
    else .isFalse (fun c => h (Except.ok.inj c))
  | .error _, .ok _ => .isFalse (fun c => Except.noConfusion c)
  | .ok _, .error _ => .isFalse (fun c => Except.noConfusion c)

/-- Processing a run of types that all live in package `p`, starting from an
accumulator whose most recent writer is `p`'s, appends each type's chunk to
that writer in order and touches nothing else. -/
theorem foldlM_same_package (g : GenFns E M R) (b : Builder E M)
    (factory : List String → Except String String) (p : List String)
    (cf : TypePath × Descriptor E M → String) :
    ∀ l : List (TypePath × Descriptor E M),
      (∀ td ∈ l, td.1.package = p) →
      (∀ td ∈ l, genChunk g b td.1 td.2 = .ok (cf td)) →
      ∀ (s : String) (rest : List (List String × String)),
        l.foldlM (generateStep g b factory) ((p, s) :: rest) =
          .ok ((p, s ++ strJoin (l.map cf)) :: rest) := by
  intro l
  induction l with
  | nil =>
    intro _ _ s rest
    simp [List.foldlM_nil, strJoin, String.append_empty]
    rfl
  | cons x l ih =>
    intro hp hg s rest
    have hx : x.1.package = p := hp x (List.mem_cons_self _ _)
    have hgx : genChunk g b x.1 x.2 = .ok (cf x) :=
      hg x (List.mem_cons_self _ _)
    have hp' : ∀ td ∈ l, td.1.package = p := fun td h =>
      hp td (List.mem_cons_of_mem _ h)
    have hg' : ∀ td ∈ l, genChunk g b td.1 td.2 = .ok (cf td) := fun td h =>
      hg td (List.mem_cons_of_mem _ h)
    rw [List.foldlM_cons]
    have hstep : generateStep g b factory ((p, s) :: rest) x =
        .ok ((p, s ++ cf x) :: rest) := by
      simp [generateStep, hx, hgx]
    rw [hstep]
    show l.foldlM (generateStep g b factory) ((p, s ++ cf x) :: rest) = _
    rw [ih hp' hg' (s ++ cf x) rest]
    simp [strJoin, String.append_assoc]

/-- Processing a package-grouped run list creates exactly one writer per
group, in group order, and each writer receives its group's chunks in
order.  The accumulator is in reverse creation order; its most recent
writer, when present, must not belong to the first group. -/
theorem foldlM_grouped (g : GenFns E M R) (b : Builder E M)
    (w : List String → String) (cf : TypePath × Descriptor E M → String) :
    ∀ (chunks : List (List String × List (TypePath × Descriptor E M)))
      (acc : List (List String × String)),
      (∀ c ∈ chunks, c.2 ≠ []) →
      (∀ c ∈ chunks, ∀ td ∈ c.2, td.1.package = c.1) →
      (∀ c ∈ chunks, ∀ td ∈ c.2, genChunk g b td.1 td.2 = .ok (cf td)) →
      (chunks.map Prod.fst).Chain' (· ≠ ·) →
      (∀ c₀ ∈ chunks.head?, ∀ a₀ ∈ acc.head?, c₀.1 ≠ a₀.1) →
      ((chunks.map Prod.snd).flatten).foldlM
          (generateStep g b (fun p => Except.ok (w p))) acc =
        .ok ((chunks.map
          (fun c => (c.1, w c.1 ++ strJoin (c.2.map cf)))).reverse ++ acc) := by
  intro chunks
  induction chunks with
  | nil =>
    intro acc _ _ _ _ _
    simp [List.foldlM_nil]
    rfl
  | cons c chunks ih =>
    intro acc hne hpkg hgen hchain hacc
    obtain ⟨p, entries⟩ := c
    obtain ⟨x, es⟩ : ∃ x es, entries = x :: es := by
      cases h : entries with
      | nil => exact absurd h (hne (p, entries) (List.mem_cons_self _ _))
      | cons x es => exact ⟨x, es, rfl⟩
    obtain ⟨es, rfl⟩ := es
    have hxp : x.1.package = p :=
      hpkg (p, x :: es) (List.mem_cons_self _ _) x (List.mem_cons_self _ _)
    have hgx : genChunk g b x.1 x.2 = .ok (cf x) :=
      hgen (p, x :: es) (List.mem_cons_self _ _) x (List.mem_cons_self _ _)
    have hstep : generateStep g b (fun q => Except.ok (w q)) acc x =
        .ok ((p, w p ++ cf x) :: acc) := by
      cases acc with
      | nil =>
        simp [generateStep, hxp, hgx]
        rfl
      | cons a rest =>
        obtain ⟨q, s⟩ := a
        have hq : p ≠ q := hacc (p, x :: es) rfl (q, s) rfl
        have hqp : ¬(q = p) := fun h => hq h.symm
        simp [generateStep, hxp, hgx, hqp]
        rfl
    have hflat : (((p, x :: es) :: chunks).map Prod.snd).flatten =
        (x :: es) ++ (chunks.map Prod.snd).flatten := by
      simp
    rw [hflat, List.foldlM_append, List.foldlM_cons, hstep]
    show ((es.foldlM (generateStep g b fun q => Except.ok (w q))
        ((p, w p ++ cf x) :: acc)) >>= fun a =>
        (chunks.map Prod.snd).flatten.foldlM
          (generateStep g b fun q => Except.ok (w q)) a) = _
    have hpes : ∀ td ∈ es, td.1.package = p := fun td h =>
      hpkg (p, x :: es) (List.mem_cons_self _ _) td (List.mem_cons_of_mem _ h)
    have hges : ∀ td ∈ es, genChunk g b td.1 td.2 = .ok (cf td) := fun td h =>
      hgen (p, x :: es) (List.mem_cons_self _ _) td (List.mem_cons_of_mem _ h)
    rw [foldlM_same_package g b _ p cf es hpes hges (w p ++ cf x) acc]
    have hne' : ∀ c ∈ chunks, c.2 ≠ [] := fun c h =>
      hne c (List.mem_cons_of_mem _ h)
    have hpkg' : ∀ c ∈ chunks, ∀ td ∈ c.2, td.1.package = c.1 := fun c h =>
      hpkg c (List.mem_cons_of_mem _ h)
    have hgen' : ∀ c ∈ chunks, ∀ td ∈ c.2, genChunk g b td.1 td.2 =
        .ok (cf td) := fun c h => hgen c (List.mem_cons_of_mem _ h)
    have hchain' : (chunks.map Prod.fst).Chain' (· ≠ ·) := by
      rw [List.map_cons] at hchain
      exact hchain.tail
    have hacc' : ∀ c₀ ∈ chunks.head?,
        ∀ a₀ ∈ ((p, w p ++ cf x ++ strJoin (es.map cf)) :: acc).head?,
          c₀.1 ≠ a₀.1 := by
      intro c₀ hc₀ a₀ ha₀
      cases chunks with
      | nil => simp at hc₀
      | cons d ds =>
        simp only [List.head?_cons, Option.mem_def, Option.some.injEq] at hc₀ ha₀
        subst hc₀
        subst ha₀
        rw [List.map_cons, List.map_cons] at hchain
        have := hchain.rel_head
        exact fun h => this (h ▸ rfl)
    show (chunks.map Prod.snd).flatten.foldlM
        (generateStep g b fun q => Except.ok (w q))
        ((p, w p ++ cf x ++ strJoin (es.map cf)) :: acc) = _
    rw [ih _ hne' hpkg' hgen' hchain' hacc']
    congr 1
    simp [strJoin, String.append_assoc]

/-- C2: when the filtered registry entries decompose into consecutive runs
(`chunks`), one run per package with pairwise-distinct packages — the
registry invariant of contiguous package grouping — and every chunk
generates successfully, `generate` returns exactly one `(package, writer)`
pair per distinct package, in first-encounter order, and each package's
writer holds its factory-provided initial contents followed by that
package's chunks in iteration order; the packages of the result are
pairwise distinct. -/
theorem generate_one_writer_per_package (g : GenFns E M R) (b : Builder E M)
    (prefixes : List String) (w : List String → String)
    (cf : TypePath × Descriptor E M → String)
    (chunks : List (List String × List (TypePath × Descriptor E M)))
    (hflat : includedTypes b prefixes = (chunks.map Prod.snd).flatten)
    (hne : ∀ c ∈ chunks, c.2 ≠ [])
    (hpkg : ∀ c ∈ chunks, ∀ td ∈ c.2, td.1.package = c.1)
    (hgen : ∀ c ∈ chunks, ∀ td ∈ c.2, genChunk g b td.1 td.2 = .ok (cf td))
    (hnodup : (chunks.map Prod.fst).Nodup) :
    b.generate g prefixes (fun p => Except.ok (w p)) =
      .ok (chunks.map (fun c => (c.1, w c.1 ++ strJoin (c.2.map cf)))) ∧
    ((chunks.map (fun c => (c.1, w c.1 ++ strJoin (c.2.map cf)))).map
      Prod.fst).Nodup := by
  constructor
  · unfold Builder.generate
    rw [hflat, foldlM_grouped g b w cf chunks [] hne hpkg hgen
      (List.Pairwise.chain' hnodup) (by intro c₀ _ a₀ h; simp at h)]
    simp [Except.map, List.reverse_reverse]
  · have : ((chunks.map (fun c => (c.1, w c.1 ++ strJoin (c.2.map cf)))).map
        Prod.fst) = chunks.map Prod.fst := by
      simp
    rw [this]
    exact hnodup

/-- Registry with three enum types in two packages, grouped contiguously. -/
def twoPackageBuilder : Builder Nat Unit :=
  { descriptors := [(⟨["a"], ["A"]⟩, Descriptor.enum 0),
                    (⟨["a"], ["B"]⟩, Descriptor.enum 0),
                    (⟨["b"], ["C"]⟩, Descriptor.enum 0)] }

/-- Witness for C2: the three types of `twoPackageBuilder` yield one writer
for package `a` holding both of its chunks and one writer for package `b`. -/
theorem generate_one_writer_per_package_witness :
    twoPackageBuilder.generate failGenFns [".a", ".b"]
        (fun p => Except.ok (strJoin p)) =
      .ok [(["a"], "aok;ok;"), (["b"], "bok;")] ∧
    (([(["a"], "aok;ok;"), (["b"], "bok;")].map Prod.fst :
      List (List String)).Nodup) := by
  have h := generate_one_writer_per_package failGenFns twoPackageBuilder
    [".a", ".b"] (fun p => strJoin p) (fun _ => "ok;")
    [(["a"], [(⟨["a"], ["A"]⟩, Descriptor.enum 0),
              (⟨["a"], ["B"]⟩, Descriptor.enum 0)]),
     (["b"], [(⟨["b"], ["C"]⟩, Descriptor.enum 0)])]
    (by decide) (by decide) (by decide) (by decide) (by decide)
  exact ⟨h.1, h.2⟩

/-! ### The JSON mapping (claim C6)

The runtime JSON codec (generated serializers plus the well-known-type
support crate) is not part of `src/`; everything below is modelled from the
specification's §4.5/§4.6 mapping rules. -/

/-- A JSON document.  Numbers are modelled as integers: every numeric value
the mapping emits for integer, enum, duration and timestamp fields is an
integer or is carried in a string. -/
inductive Json where
  | null
  | bool (b : Bool)
  | num (n : Int)
  | str (s : String)
  | arr (elems : List Json)
  | obj (entries : List (String × Json))
  deriving Repr

/-- The character for a single decimal digit. -/
def digitChar (d : Nat) : Char := Char.ofNat (48 + d)

/-- Is the character a decimal digit? -/
def isDigitCh (c : Char) : Bool := 48 ≤ c.toNat && c.toNat ≤ 57

/-- Decimal digits of `n`, most significant first; fuel-indexed structural
recursion (any fuel above `n` gives the digits). -/
def natDigitsAux : Nat → Nat → List Char
  | 0, _ => []
  | fuel + 1, n =>
    if n < 10 then [digitChar n]
    else natDigitsAux fuel (n / 10) ++ [digitChar (n % 10)]

/-- Decimal representation of a natural number. -/
def natDigits (n : Nat) : List Char := natDigitsAux (n + 1) n

/-- Numeric value of a digit string (most significant first). -/
def digitsToNat (l : List Char) : Nat :=
  l.foldl (fun acc c => acc * 10 + (c.toNat - 48)) 0

/-- Splits the longest leading run of decimal digits off a character list. -/
def takeDigits : List Char → List Char × List Char
  | [] => ([], [])
  | c :: cs =>
    if isDigitCh c then
      let p := takeDigits cs
      (c :: p.1, p.2)
    else ([], c :: cs)

theorem digitChar_toNat (d : Nat) (h : d < 10) :
    (digitChar d).toNat = 48 + d := by
  interval_cases d <;> decide

theorem isDigitCh_digitChar (d : Nat) (h : d < 10) :
    isDigitCh (digitChar d) = true := by
  interval_cases d <;> decide

theorem natDigitsAux_digits (fuel : Nat) :
    ∀ n, n < fuel → ∀ c ∈ natDigitsAux fuel n, isDigitCh c = true := by
  induction fuel with
  | zero => intro n h; omega
  | succ fuel ih =>
    intro n h c hc
    by_cases h10 : n < 10
    · simp only [natDigitsAux, if_pos h10, List.mem_singleton] at hc
      subst hc
      exact isDigitCh_digitChar n h10
    · simp only [natDigitsAux, if_neg h10, List.mem_append,
        List.mem_singleton] at hc
      rcases hc with hc | hc
      · exact ih (n / 10) (by omega) c hc
      · subst hc
        exact isDigitCh_digitChar (n % 10) (by omega)

theorem natDigits_digits (n : Nat) :
    ∀ c ∈ natDigits n, isDigitCh c = true :=
  natDigitsAux_digits (n + 1) n (by omega)

theorem natDigitsAux_ne_nil (fuel n : Nat) (h : n < fuel) :
    natDigitsAux fuel n ≠ [] := by
  cases fuel with
  | zero => omega
  | succ fuel =>
    by_cases h10 : n < 10 <;> simp [natDigitsAux, h10]

theorem natDigits_ne_nil (n : Nat) : natDigits n ≠ [] :=
  natDigitsAux_ne_nil (n + 1) n (by omega)

theorem foldl_digits_append (l : List Char) (c : Char) (acc : Nat) :
    (l ++ [c]).foldl (fun acc c => acc * 10 + (c.toNat - 48)) acc =
      (l.foldl (fun acc c => acc * 10 + (c.toNat - 48)) acc) * 10 +
        (c.toNat - 48) := by
  rw [List.foldl_append]
  rfl

theorem digitsToNat_natDigitsAux (fuel : Nat) :
    ∀ n, n < fuel → digitsToNat (natDigitsAux fuel n) = n := by
  induction fuel with
  | zero => intro n h; omega
  | succ fuel ih =>
    intro n h
    by_cases h10 : n < 10
    · simp only [natDigitsAux, if_pos h10, digitsToNat, List.foldl_cons,
        List.foldl_nil, digitChar_toNat n h10]
      omega
    · simp only [natDigitsAux, if_neg h10, digitsToNat, foldl_digits_append]
      have hrec := ih (n / 10) (by omega)
      simp only [digitsToNat] at hrec
      rw [hrec, digitChar_toNat (n % 10) (by omega)]
      omega

theorem digitsToNat_natDigits (n : Nat) : digitsToNat (natDigits n) = n :=
  digitsToNat_natDigitsAux (n + 1) n (by omega)

theorem takeDigits_append (l rest : List Char)
    (hl : ∀ c ∈ l, isDigitCh c = true)
    (hrest : ∀ c, rest.head? = some c → isDigitCh c = false) :
    takeDigits (l ++ rest) = (l, rest) := by
  induction l with
  | nil =>
    cases rest with
    | nil => rfl
    | cons c cs =>
      have := hrest c rfl
      simp [takeDigits, this]
  | cons c cs ih =>
    have hc : isDigitCh c = true := hl c (List.mem_cons_self _ _)
    have hcs : ∀ x ∈ cs, isDigitCh x = true := fun x hx =>
      hl x (List.mem_cons_of_mem _ hx)
    simp [takeDigits, hc, ih hcs]

/-! ### Base64 (standard alphabet, with padding) -/

/-- The standard-alphabet base64 character of a 6-bit value. -/
def b64Char (v : Nat) : Char :=
  if v < 26 then Char.ofNat (65 + v)
  else if v < 52 then Char.ofNat (97 + (v - 26))
  else if v < 62 then Char.ofNat (48 + (v - 52))
  else if v = 62 then '+'
  else '/'

/-- The 6-bit value of a base64 character. -/
def b64Val (c : Char) : Option Nat :=
  if 65 ≤ c.toNat ∧ c.toNat ≤ 90 then some (c.toNat - 65)
  else if 97 ≤ c.toNat ∧ c.toNat ≤ 122 then some (c.toNat - 97 + 26)
  else if 48 ≤ c.toNat ∧ c.toNat ≤ 57 then some (c.toNat - 48 + 52)
  else if c = '+' then some 62
  else if c = '/' then some 63
  else none

/-- Base64 encoding of a byte list, three bytes a block, padded with `=`. -/
def b64Encode : List Nat → List Char
  | [] => []
  | [a] => [b64Char (a / 4), b64Char ((a % 4) * 16), '=', '=']
  | [a, b] =>
    [b64Char (a / 4), b64Char ((a % 4) * 16 + b / 16),
     b64Char ((b % 16) * 4), '=']
  | a :: b :: c :: rest =>
    b64Char (a / 4) :: b64Char ((a % 4) * 16 + b / 16) ::
      b64Char ((b % 16) * 4 + c / 64) :: b64Char (c % 64) :: b64Encode rest

/-- Base64 decoding; rejects malformed input (wrong length, bad characters,
non-zero padding bits). -/
def b64Decode : List Char → Option (List Nat)
  | [] => some []
  | c1 :: c2 :: c3 :: c4 :: rest =>
    match b64Val c1, b64Val c2 with
    | some v1, some v2 =>
      if c3 = '=' ∧ c4 = '=' ∧ rest = [] then
        if v2 % 16 = 0 then some [v1 * 4 + v2 / 16] else none
      else if c4 = '=' ∧ rest = [] then
        match b64Val c3 with
        | some v3 =>
          if v3 % 4 = 0 then
            some [v1 * 4 + v2 / 16, (v2 % 16) * 16 + v3 / 4]
          else none
        | none => none
      else
        match b64Val c3, b64Val c4, b64Decode rest with
        | some v3, some v4, some bs =>
          some ((v1 * 4 + v2 / 16) :: ((v2 % 16) * 16 + v3 / 4) ::
            ((v3 % 4) * 64 + v4) :: bs)
        | _, _, _ => none
    | _, _ => none
  | _ => none

theorem b64Val_b64Char (v : Nat) (h : v < 64) :
    b64Val (b64Char v) = some v := by
  interval_cases v <;> decide

theorem b64Char_ne_pad (v : Nat) (h : v < 64) : b64Char v ≠ '=' := by
  interval_cases v <;> decide

theorem b64_roundtrip_aux :
    ∀ n bs, bs.length ≤ n → (∀ x ∈ bs, x < 256) →
      b64Decode (b64Encode bs) = some bs := by
  intro n
  induction n with
  | zero =>
    intro bs hlen _
    have : bs = [] := List.length_eq_zero.mp (by omega)
    subst this
    rfl
  | succ n ih =>
    intro bs hlen hbs
    match bs with
    | [] => rfl
    | [a] =>
      have ha : a < 256 := hbs a (by simp)
      have h1 := b64Val_b64Char (a / 4) (by omega)
      have h2 := b64Val_b64Char ((a % 4) * 16) (by omega)
      have e0 : (a % 4) * 16 % 16 = 0 := by omega
      simp [b64Encode, b64Decode, h1, h2, e0]
      omega
    | [a, b] =>
      have ha : a < 256 := hbs a (by simp)
      have hb : b < 256 := hbs b (by simp)
      have h1 := b64Val_b64Char (a / 4) (by omega)
      have h2 := b64Val_b64Char ((a % 4) * 16 + b / 16) (by omega)
      have h3 := b64Val_b64Char ((b % 16) * 4) (by omega)
      have hne : ¬(b64Char ((b % 16) * 4) = '=') :=
        b64Char_ne_pad _ (by omega)
      have e0 : (b % 16) * 4 % 4 = 0 := by omega
      have e1 : a / 4 * 4 + (a % 4 * 16 + b / 16) / 16 = a := by omega
      simp [b64Encode, b64Decode, h1, h2, h3, hne, e0, e1]
      omega
    | a :: b :: c :: rest =>
      have ha : a < 256 := hbs a (by simp)
      have hb : b < 256 := hbs b (by simp)
      have hc : c < 256 := hbs c (by simp)
      have hrest : ∀ x ∈ rest, x < 256 := fun x hx =>
        hbs x (by simp [hx])
      have hlen' : rest.length ≤ n := by
        simp only [List.length_cons] at hlen
        omega
      have hrec := ih rest hlen' hrest
      have h1 := b64Val_b64Char (a / 4) (by omega)
      have h2 := b64Val_b64Char ((a % 4) * 16 + b / 16) (by omega)
      have h3 := b64Val_b64Char ((b % 16) * 4 + c / 64) (by omega)
      have h4 := b64Val_b64Char (c % 64) (by omega)
      have hne3 : ¬(b64Char ((b % 16) * 4 + c / 64) = '=') :=
        b64Char_ne_pad _ (by omega)
      have hne4 : ¬(b64Char (c % 64) = '=') := b64Char_ne_pad _ (by omega)
      have f1 : a / 4 * 4 + (a % 4 * 16 + b / 16) / 16 = a := by omega
      have f2 : (a % 4 * 16 + b / 16) % 16 * 16 +
          ((b % 16) * 4 + c / 64) / 4 = b := by omega
      have f3 : ((b % 16) * 4 + c / 64) % 4 * 64 + c % 64 = c := by omega
      simp [b64Encode, b64Decode, h1, h2, h3, h4, hne3, hne4, hrec,
        f1, f2, f3]

/-- Base64 decoding inverts encoding on byte lists. -/
theorem b64_roundtrip (bs : List Nat) (h : ∀ x ∈ bs, x < 256) :
    b64Decode (b64Encode bs) = some bs :=
  b64_roundtrip_aux bs.length bs (le_refl _) h

/-! ### ASCII case conversion and field-name camel-casing -/

theorem charToNatOfNatValid (n : Nat) (hv : n.isValidChar) :
    (Char.ofNat n).toNat = n := by
  unfold Char.ofNat
  rw [dif_pos hv]
  have hb : n < 4294967296 := by
    rcases hv with h | ⟨_, h⟩ <;> omega
  simp [Char.toNat, Char.ofNatAux, UInt32.toNat, BitVec.toNat_ofNatLt]

theorem charToNatOfNat (n : Nat) (h : n < 55296) : (Char.ofNat n).toNat = n :=
  charToNatOfNatValid n (Or.inl h)

theorem charOfNatToNat (c : Char) : Char.ofNat c.toNat = c := by
  have hv : c.toNat.isValidChar := c.valid
  have h2 : (Char.ofNat c.toNat).val.toNat = c.val.toNat :=
    charToNatOfNatValid _ hv
  exact Char.ext (UInt32.ext h2)

/-- Is the character an ASCII lower-case letter? -/
def isLowerCh (c : Char) : Bool := 97 ≤ c.toNat && c.toNat ≤ 122

/-- Is the character an ASCII upper-case letter? -/
def isUpperCh (c : Char) : Bool := 65 ≤ c.toNat && c.toNat ≤ 90

/-- ASCII upper-casing of a lower-case letter. -/
def chUpper (c : Char) : Char :=
  if isLowerCh c then Char.ofNat (c.toNat - 32) else c

/-- ASCII lower-casing of an upper-case letter. -/
def chLower (c : Char) : Char :=
  if isUpperCh c then Char.ofNat (c.toNat + 32) else c

/-- Modelled from the spec: the resolver's `field_json_name` conversion
(absent from `src/`), on characters: each underscore is removed and the
character following it is upper-cased (lowerCamelCase per the mapping
specification). -/
def camelChars : List Char → List Char
  | [] => []
  | c :: rest =>
    if c = '_' then
      match rest with
      | [] => []
      | c' :: rest' => chUpper c' :: camelChars rest'
    else c :: camelChars rest

/-- Modelled from the spec: the inverse conversion used when decoding a
`FieldMask`: an upper-case letter becomes an underscore followed by its
lower-case form. -/
def snakeChars : List Char → List Char
  | [] => []
  | c :: rest =>
    if isUpperCh c then '_' :: chLower c :: snakeChars rest
    else c :: snakeChars rest

/-- A canonical snake-case path: characters are lower-case letters, digits
or dots, underscores are always followed by a lower-case letter. -/
def canonSnake : List Char → Bool
  | [] => true
  | c :: rest =>
    (if c = '_' then
      match rest.head? with
      | some c' => isLowerCh c'
      | none => false
    else (isLowerCh c || isDigitCh c || c = '.')) && canonSnake rest

theorem canonSnake_cons (c : Char) (rest : List Char) :
    canonSnake (c :: rest) =
      ((if c = '_' then
        match rest.head? with
        | some c' => isLowerCh c'
        | none => false
      else (isLowerCh c || isDigitCh c || decide (c = '.'))) &&
        canonSnake rest) := rfl

theorem camelChars_underscore (c' : Char) (rest' : List Char) :
    camelChars ('_' :: c' :: rest') = chUpper c' :: camelChars rest' := rfl

theorem camelChars_cons (c : Char) (rest : List Char) (h : ¬(c = '_')) :
    camelChars (c :: rest) = c :: camelChars rest := by
  rw [camelChars.eq_def]
  simp only [h, if_false]

theorem snakeChars_cons (c : Char) (rest : List Char) :
    snakeChars (c :: rest) =
      (if isUpperCh c then '_' :: chLower c :: snakeChars rest
       else c :: snakeChars rest) := rfl

theorem chLower_chUpper (c : Char) (h : isLowerCh c = true) :
    chLower (chUpper c) = c := by
  simp only [isLowerCh, Bool.and_eq_true, decide_eq_true_eq] at h
  have h1 : chUpper c = Char.ofNat (c.toNat - 32) := by
    simp [chUpper, isLowerCh]
    omega
  have h2 : (Char.ofNat (c.toNat - 32)).toNat = c.toNat - 32 :=
    charToNatOfNat _ (by omega)
  rw [h1, chLower, if_pos (by simp [isUpperCh, h2]; omega), h2]
  have h3 : c.toNat - 32 + 32 = c.toNat := by omega
  rw [h3, charOfNatToNat]

theorem isUpperCh_chUpper (c : Char) (h : isLowerCh c = true) :
    isUpperCh (chUpper c) = true := by
  simp only [isLowerCh, Bool.and_eq_true, decide_eq_true_eq] at h
  have h1 : chUpper c = Char.ofNat (c.toNat - 32) := by
    simp [chUpper, isLowerCh]
    omega
  have h2 : (Char.ofNat (c.toNat - 32)).toNat = c.toNat - 32 :=
    charToNatOfNat _ (by omega)
  rw [h1]
  simp [isUpperCh, h2]
  omega

theorem not_isUpperCh_lower_digit_dot (c : Char)
    (h : isLowerCh c = true ∨ isDigitCh c = true ∨ c = '.') :
    isUpperCh c = false := by
  rcases h with h | h | h
  · simp only [isLowerCh, Bool.and_eq_true, decide_eq_true_eq] at h
    simp [isUpperCh]
    omega
  · simp only [isDigitCh, Bool.and_eq_true, decide_eq_true_eq] at h
    simp [isUpperCh]
    omega
  · subst h
    decide

theorem snake_camel_aux (n : Nat) :
    ∀ l : List Char, l.length ≤ n → canonSnake l = true →
      snakeChars (camelChars l) = l := by
  induction n with
  | zero =>
    intro l hlen _
    have : l = [] := List.length_eq_zero.mp (by omega)
    subst this
    rfl
  | succ n ih =>
    intro l hlen hcanon
    match l with
    | [] => rfl
    | c :: rest =>
      rw [canonSnake_cons, Bool.and_eq_true] at hcanon
      obtain ⟨hchead, hcrest⟩ := hcanon
      by_cases hund : c = '_'
      · subst hund
        rw [if_pos rfl] at hchead
        match rest with
        | [] => exact absurd hchead (by simp)
        | c' :: rest' =>
          simp only [List.head?_cons] at hchead
          rw [canonSnake_cons, Bool.and_eq_true] at hcrest
          obtain ⟨_, hcrest'⟩ := hcrest
          have hlen' : rest'.length ≤ n := by
            simp only [List.length_cons] at hlen
            omega
          rw [camelChars_underscore, snakeChars_cons,
            if_pos (isUpperCh_chUpper c' hchead), chLower_chUpper c' hchead,
            ih rest' hlen' hcrest']
      · rw [if_neg hund] at hchead
        have hc' : isLowerCh c = true ∨ isDigitCh c = true ∨ c = '.' := by
          rcases Bool.or_eq_true _ _ |>.mp hchead with h | h
          · rcases Bool.or_eq_true _ _ |>.mp h with h | h
            · exact Or.inl h
            · exact Or.inr (Or.inl h)
          · exact Or.inr (Or.inr (by simpa using h))
        have hlen' : rest.length ≤ n := by
          simp only [List.length_cons] at hlen
          omega
        rw [camelChars_cons c rest hund, snakeChars_cons,
          if_neg (by simp [not_isUpperCh_lower_digit_dot c hc']),
          ih rest hlen' hcrest]

/-- Snake-casing inverts camel-casing on canonical snake-case input. -/
theorem snake_camel (l : List Char) (h : canonSnake l = true) :
    snakeChars (camelChars l) = l :=
  snake_camel_aux l.length l (le_refl _) h

/-! ### Zero-padded fixed-width decimal fields -/

theorem natDigitsAux_length (fuel : Nat) :
    ∀ n, n < fuel → ∀ w, 1 ≤ w → n < 10 ^ w →
      (natDigitsAux fuel n).length ≤ w := by
  induction fuel with
  | zero => intro n h; omega
  | succ fuel ih =>
    intro n h w hw hpow
    by_cases h10 : n < 10
    · simp [natDigitsAux, h10]
      omega
    · simp only [natDigitsAux, if_neg h10, List.length_append,
        List.length_singleton]
      match w, hw with
      | 1, _ =>
        exfalso
        simp only [pow_one] at hpow
        omega
      | w' + 2, _ =>
        have hpow' : n / 10 < 10 ^ (w' + 1) := by
          rw [pow_succ] at hpow
          omega
        have := ih (n / 10) (by omega) (w' + 1) (by omega) hpow'
        omega

theorem natDigits_length (n w : Nat) (hw : 1 ≤ w) (h : n < 10 ^ w) :
    (natDigits n).length ≤ w :=
  natDigitsAux_length (n + 1) n (by omega) w hw h

theorem digitsToNat_replicate_zero (k : Nat) (l : List Char) :
    digitsToNat (List.replicate k '0' ++ l) = digitsToNat l := by
  induction k with
  | zero => rfl
  | succ k ih =>
    simp only [List.replicate_succ, List.cons_append, digitsToNat,
      List.foldl_cons]
    exact ih

/-- `n` zero-padded to `w` decimal digits. -/
def padNat (w n : Nat) : List Char :=
  List.replicate (w - (natDigits n).length) '0' ++ natDigits n

theorem padNat_length (w n : Nat) (h : (natDigits n).length ≤ w) :
    (padNat w n).length = w := by
  simp [padNat]
  omega

theorem padNat_digits (w n : Nat) :
    ∀ c ∈ padNat w n, isDigitCh c = true := by
  intro c hc
  rcases List.mem_append.mp hc with h | h
  · have := List.eq_of_mem_replicate h
    subst this
    decide
  · exact natDigits_digits n c h

theorem digitsToNat_padNat (w n : Nat) :
    digitsToNat (padNat w n) = n := by
  rw [padNat, digitsToNat_replicate_zero, digitsToNat_natDigits]

/-- Reads exactly `k` decimal digits off the front of the input. -/
def readFixed (k : Nat) (l : List Char) : Option (Nat × List Char) :=
  if (l.take k).length = k ∧ (l.take k).all isDigitCh then
    some (digitsToNat (l.take k), l.drop k)
  else none

theorem readFixed_padNat (k n : Nat) (rest : List Char) (hk : 1 ≤ k)
    (h : n < 10 ^ k) :
    readFixed k (padNat k n ++ rest) = some (n, rest) := by
  have hlen : (padNat k n).length = k :=
    padNat_length k n (natDigits_length n k hk h)
  have htake : (padNat k n ++ rest).take k = padNat k n :=
    List.take_left' hlen
  have hdrop : (padNat k n ++ rest).drop k = rest :=
    List.drop_left' hlen
  rw [readFixed, htake, hdrop]
  rw [if_pos ⟨hlen, List.all_eq_true.mpr (fun c hc => padNat_digits k n c hc)⟩]
  rw [digitsToNat_padNat]

/-- Consumes an expected literal character. -/
def expectCh (c : Char) : List Char → Option (List Char)
  | [] => none
  | x :: r => if x = c then some r else none

theorem expectCh_cons (c : Char) (r : List Char) :
    expectCh c (c :: r) = some r := by
  simp [expectCh]

/-! ### Comma-separated path lists (FieldMask) -/

/-- Splits a character list at every comma. -/
def splitComma : List Char → List (List Char)
  | [] => [[]]
  | c :: rest =>
    match splitComma rest with
    | [] => [[]]
    | g :: gs => if c = ',' then [] :: g :: gs else (c :: g) :: gs

/-- Joins paths with comma separators (no trailing comma). -/
def joinComma : List (List Char) → List Char
  | [] => []
  | [p] => p
  | p :: ps => p ++ ',' :: joinComma ps

theorem splitComma_commaless_append (p rest : List Char) (g : List Char)
    (gs : List (List Char)) (h : ∀ ch ∈ p, ch ≠ ',')
    (hrest : splitComma rest = g :: gs) :
    splitComma (p ++ rest) = (p ++ g) :: gs := by
  induction p with
  | nil => simpa using hrest
  | cons ch p' ih =>
    have hch : ch ≠ ',' := h ch (List.mem_cons_self _ _)
    have h' : ∀ x ∈ p', x ≠ ',' := fun x hx => h x (List.mem_cons_of_mem _ hx)
    have hstep : splitComma (p' ++ rest) = (p' ++ g) :: gs := ih h'
    show splitComma (ch :: (p' ++ rest)) = _
    simp only [splitComma, hstep, if_neg hch]
    simp

theorem splitComma_commaless (p : List Char) (h : ∀ ch ∈ p, ch ≠ ',') :
    splitComma p = [p] := by
  have := splitComma_commaless_append p [] [] [] h rfl
  simpa using this

theorem splitComma_joinComma (ps : List (List Char)) (hne : ps ≠ [])
    (h : ∀ p ∈ ps, ∀ ch ∈ p, ch ≠ ',') :
    splitComma (joinComma ps) = ps := by
  induction ps with
  | nil => exact absurd rfl hne
  | cons p ps ih =>
    match ps with
    | [] =>
      exact splitComma_commaless p (h p (List.mem_cons_self _ _))
    | q :: ps' =>
      have hq : splitComma (joinComma (q :: ps')) = q :: ps' :=
        ih (by simp) (fun x hx => h x (List.mem_cons_of_mem _ hx))
      have hcomma : splitComma (',' :: joinComma (q :: ps')) =
          [] :: q :: ps' := by
        simp only [splitComma, hq]
        simp
      have := splitComma_commaless_append p (',' :: joinComma (q :: ps'))
        [] (q :: ps') (h p (List.mem_cons_self _ _)) hcomma
      simpa [joinComma] using this

/-! ### Duration text form `"<seconds>.<nanos>s"` -/

/-- The fractional-second digits for a non-zero nanosecond count: 9-digit
zero-padded, truncated to as many three-digit groups as needed. -/
def fracDigitsOf (nanos : Nat) : List Char :=
  if nanos % 1000000 = 0 then padNat 3 (nanos / 1000000)
  else if nanos % 1000 = 0 then padNat 6 (nanos / 1000)
  else padNat 9 nanos

/-- Modelled from the spec: the Duration text form — optional sign applied
to the whole value, decimal seconds, fractional seconds only when the
nanosecond part is non-zero, suffix `s`. -/
def durationChars (s n : Int) : List Char :=
  (if s < 0 ∨ n < 0 then ['-'] else []) ++ natDigits s.natAbs ++
    (if n = 0 then [] else '.' :: fracDigitsOf n.natAbs) ++ ['s']

/-- The sign-free part of the Duration parser: decimal seconds, optional
fraction of one to nine digits, mandatory `s` suffix. -/
def parseDurationCore (neg : Bool) (l₁ : List Char) : Option (Int × Int) :=
  let p := takeDigits l₁
  if p.1 = [] then none
  else
    let sAbs : Int := (digitsToNat p.1 : Int)
    if p.2.head? = some '.' then
      let q := takeDigits p.2.tail
      if q.1 = [] ∨ 9 < q.1.length then none
      else if q.2 = ['s'] then
        let nAbs : Int := ((digitsToNat q.1 * 10 ^ (9 - q.1.length) : Nat) : Int)
        some (if neg then (-sAbs, -nAbs) else (sAbs, nAbs))
      else none
    else if p.2 = ['s'] then some (if neg then (-sAbs, 0) else (sAbs, 0))
    else none

/-- Modelled from the spec: parsing the Duration textual form; rejects
inputs without digits, with more than nine fractional digits, or without
the `s` suffix. -/
def parseDuration (l : List Char) : Option (Int × Int) :=
  match l with
  | c :: r =>
    if c = '-' then parseDurationCore true r
    else parseDurationCore false (c :: r)
  | [] => none

theorem fracDigitsOf_spec (nAbs : Nat) (h0 : nAbs ≠ 0)
    (h : nAbs < 1000000000) :
    (∀ c ∈ fracDigitsOf nAbs, isDigitCh c = true) ∧
    fracDigitsOf nAbs ≠ [] ∧ (fracDigitsOf nAbs).length ≤ 9 ∧
    digitsToNat (fracDigitsOf nAbs) * 10 ^ (9 - (fracDigitsOf nAbs).length)
      = nAbs := by
  unfold fracDigitsOf
  by_cases h6 : nAbs % 1000000 = 0
  · rw [if_pos h6]
    have hlen : (padNat 3 (nAbs / 1000000)).length = 3 :=
      padNat_length _ _ (natDigits_length _ 3 (by omega) (by norm_num; omega))
    refine ⟨padNat_digits _ _, ?_, by omega, ?_⟩
    · intro hnil
      rw [hnil] at hlen
      simp at hlen
    · rw [hlen, digitsToNat_padNat]
      norm_num
      omega
  · rw [if_neg h6]
    by_cases h3 : nAbs % 1000 = 0
    · rw [if_pos h3]
      have hlen : (padNat 6 (nAbs / 1000)).length = 6 :=
        padNat_length _ _ (natDigits_length _ 6 (by omega) (by norm_num; omega))
      refine ⟨padNat_digits _ _, ?_, by omega, ?_⟩
      · intro hnil
        rw [hnil] at hlen
        simp at hlen
      · rw [hlen, digitsToNat_padNat]
        norm_num
        omega
    · rw [if_neg h3]
      have hlen : (padNat 9 nAbs).length = 9 :=
        padNat_length _ _ (natDigits_length _ 9 (by omega) (by norm_num; omega))
      refine ⟨padNat_digits _ _, ?_, by omega, ?_⟩
      · intro hnil
        rw [hnil] at hlen
        simp at hlen
      · rw [hlen, digitsToNat_padNat]
        norm_num

theorem parseDurationCore_spec (neg : Bool) (sAbs nAbs : Nat)
    (hn : nAbs < 1000000000) :
    parseDurationCore neg
      (natDigits sAbs ++
        (if nAbs = 0 then [] else '.' :: fracDigitsOf nAbs) ++ ['s']) =
      some (if neg then (-(sAbs : Int), -(nAbs : Int))
        else ((sAbs : Int), (nAbs : Int))) := by
  by_cases h0 : nAbs = 0
  · subst h0
    rw [if_pos rfl]
    have htd : takeDigits (natDigits sAbs ++ ['s']) = (natDigits sAbs, ['s']) := by
      apply takeDigits_append _ _ (natDigits_digits sAbs)
      intro c hc
      simp only [List.head?_cons, Option.some.injEq] at hc
      subst hc
      decide
    simp only [List.append_nil, parseDurationCore, htd]
    rw [if_neg (natDigits_ne_nil sAbs)]
    cases neg <;> simp [digitsToNat_natDigits]
  · rw [if_neg h0]
    obtain ⟨hdig, hne, hlen, hval⟩ := fracDigitsOf_spec nAbs h0 hn
    have htd : takeDigits (natDigits sAbs ++
        ('.' :: fracDigitsOf nAbs ++ ['s'])) =
        (natDigits sAbs, '.' :: fracDigitsOf nAbs ++ ['s']) := by
      apply takeDigits_append _ _ (natDigits_digits sAbs)
      intro c hc
      simp only [List.cons_append, List.head?_cons, Option.some.injEq] at hc
      subst hc
      decide
    have htd2 : takeDigits (fracDigitsOf nAbs ++ ['s']) =
        (fracDigitsOf nAbs, ['s']) := by
      apply takeDigits_append _ _ hdig
      intro c hc
      simp only [List.head?_cons, Option.some.injEq] at hc
      subst hc
      decide
    have hassoc : natDigits sAbs ++ ('.' :: fracDigitsOf nAbs) ++ ['s'] =
        natDigits sAbs ++ ('.' :: fracDigitsOf nAbs ++ ['s']) := by
      simp
    rw [hassoc]
    simp only [parseDurationCore, htd]
    rw [if_neg (natDigits_ne_nil sAbs)]
    have hq : ¬(fracDigitsOf nAbs = [] ∨ 9 < (fracDigitsOf nAbs).length) :=
      not_or.mpr ⟨hne, by omega⟩
    cases neg <;>
      simp [htd2, hq, digitsToNat_natDigits, hval]

/-- Parsing the Duration text form inverts formatting, for in-range values
whose seconds and nanos do not have opposite signs. -/
theorem duration_roundtrip (s n : Int)
    (hsign : (0 ≤ s ∧ 0 ≤ n) ∨ (s ≤ 0 ∧ n ≤ 0))
    (hn : n.natAbs < 1000000000) :
    parseDuration (durationChars s n) = some (s, n) := by
  have hif : (if n = 0 then ([] : List Char)
      else '.' :: fracDigitsOf n.natAbs) =
      (if n.natAbs = 0 then [] else '.' :: fracDigitsOf n.natAbs) := by
    by_cases h : n = 0
    · rw [if_pos h, if_pos (by omega)]
    · rw [if_neg h, if_neg (by omega)]
  unfold durationChars
  rw [hif]
  by_cases hneg : s < 0 ∨ n < 0
  · rw [if_pos hneg]
    show parseDuration ('-' :: (natDigits s.natAbs ++ _ ++ _)) = _
    have hstep : parseDuration ('-' :: (natDigits s.natAbs ++
        (if n.natAbs = 0 then [] else '.' :: fracDigitsOf n.natAbs) ++
          ['s'])) =
        parseDurationCore true (natDigits s.natAbs ++
          (if n.natAbs = 0 then [] else '.' :: fracDigitsOf n.natAbs) ++
            ['s']) := by
      simp [parseDuration]
    rw [hstep, parseDurationCore_spec true s.natAbs n.natAbs hn]
    simp only [Option.some.injEq, Prod.mk.injEq]
    simp only [if_true]
    rw [Prod.mk.injEq]
    constructor <;> omega
  · rw [if_neg hneg]
    obtain ⟨d, t, hd⟩ : ∃ d t, natDigits s.natAbs = d :: t := by
      cases hnd : natDigits s.natAbs with
      | nil => exact absurd hnd (natDigits_ne_nil _)
      | cons d t => exact ⟨d, t, rfl⟩
    have hddig : isDigitCh d = true := by
      apply natDigits_digits s.natAbs
      rw [hd]
      exact List.mem_cons_self _ _
    have hdne : ¬(d = '-') := by
      intro hh
      subst hh
      simp [isDigitCh] at hddig
    have hstep : parseDuration (natDigits s.natAbs ++
        (if n.natAbs = 0 then [] else '.' :: fracDigitsOf n.natAbs) ++
          ['s']) =
        parseDurationCore false (natDigits s.natAbs ++
          (if n.natAbs = 0 then [] else '.' :: fracDigitsOf n.natAbs) ++
            ['s']) := by
      rw [hd]
      simp only [List.cons_append, parseDuration, if_neg hdne]
    simp only [List.nil_append]
    rw [hstep, parseDurationCore_spec false s.natAbs n.natAbs hn]
    simp only [Bool.false_eq_true, if_false, Option.some.injEq, Prod.mk.injEq]
    constructor <;> omega

/-! ### Gregorian calendar arithmetic for Timestamp -/

/-- Gregorian leap-year test. -/
def isLeap (y : Nat) : Bool := y % 4 == 0 && (y % 100 != 0 || y % 400 == 0)

/-- Days in a calendar year. -/
def daysInYear (y : Nat) : Nat := if isLeap y then 366 else 365

/-- Month lengths, January first. -/
def monthLengths (leap : Bool) : List Nat :=
  [31, if leap then 29 else 28, 31, 30, 31, 30, 31, 31, 30, 31, 30, 31]

/-- Total days in the `n` consecutive years starting at year `y`. -/
def sumYears : Nat → Nat → Nat
  | _, 0 => 0
  | y, n + 1 => daysInYear y + sumYears (y + 1) n

/-- Days in years `1..n`, in closed form (`n/4 - n/100 + n/400` leap days). -/
def daysBeforeYears (n : Nat) : Nat := 365 * n + n / 4 - n / 100 + n / 400

/-- Locates the calendar year containing day `r` (counted from the start of
year `y`), by subtracting year lengths; returns the year and the remaining
day-of-year. -/
def findYear : Nat → Nat → Nat → Nat × Nat
  | 0, y, r => (y, r)
  | fuel + 1, y, r =>
    if r < daysInYear y then (y, r)
    else findYear fuel (y + 1) (r - daysInYear y)

/-- Locates the month containing day `r` of a year given the month-length
table; returns the (1-based) month and the remaining day-of-month. -/
def findMonth : List Nat → Nat → Nat → Nat × Nat
  | [], m, r => (m, r)
  | len :: rest, m, r =>
    if r < len then (m, r) else findMonth rest (m + 1) (r - len)

theorem sumYears_succ_right (y n : Nat) :
    sumYears y (n + 1) = sumYears y n + daysInYear (y + n) := by
  induction n generalizing y with
  | zero => simp [sumYears]
  | succ n ih =>
    show daysInYear y + sumYears (y + 1) (n + 1) = _
    rw [ih (y + 1)]
    show daysInYear y + (sumYears (y + 1) n + daysInYear (y + 1 + n)) =
      daysInYear y + sumYears (y + 1) n + daysInYear (y + (n + 1))
    have : y + 1 + n = y + (n + 1) := by omega
    rw [this]
    omega

theorem sumYears_lb (y n : Nat) : 365 * n ≤ sumYears y n := by
  induction n generalizing y with
  | zero => simp [sumYears]
  | succ n ih =>
    show 365 * (n + 1) ≤ daysInYear y + sumYears (y + 1) n
    have h1 := ih (y + 1)
    have h2 : 365 ≤ daysInYear y := by
      unfold daysInYear
      split <;> omega
  -- split is allowed here: it cases on the if
    omega

set_option maxHeartbeats 1600000 in
theorem sumYears_one_closed : ∀ n, sumYears 1 n = daysBeforeYears n := by
  intro n
  induction n with
  | zero => rfl
  | succ n ih =>
    rw [sumYears_succ_right, ih]
    have h1 : (1 + n) = n + 1 := by omega
    rw [h1]
    by_cases hl : isLeap (n + 1) = true
    · rw [daysInYear, if_pos hl]
      simp only [isLeap, Bool.and_eq_true, beq_iff_eq, Bool.or_eq_true,
        bne_iff_ne, ne_eq] at hl
      obtain ⟨h4, hor⟩ := hl
      unfold daysBeforeYears
      rcases hor with h100 | h400 <;> omega
    · rw [daysInYear, if_neg hl]
      simp only [isLeap, Bool.and_eq_true, beq_iff_eq, Bool.or_eq_true,
        bne_iff_ne, ne_eq, not_and, not_or, not_not] at hl
      unfold daysBeforeYears
      by_cases h4 : (n + 1) % 4 = 0
      · obtain ⟨h100, h400⟩ := hl h4
        omega
      · omega

theorem findYear_spec :
    ∀ fuel y r, r < sumYears y fuel →
      y ≤ (findYear fuel y r).1 ∧
      (findYear fuel y r).1 < y + fuel ∧
      r = sumYears y ((findYear fuel y r).1 - y) + (findYear fuel y r).2 ∧
      (findYear fuel y r).2 < daysInYear (findYear fuel y r).1 := by
  intro fuel
  induction fuel with
  | zero =>
    intro y r h
    simp [sumYears] at h
  | succ fuel ih =>
    intro y r h
    by_cases hlt : r < daysInYear y
    · simp only [findYear, if_pos hlt]
      exact ⟨le_refl y, by omega, by simp [sumYears], hlt⟩
    · simp only [findYear, if_neg hlt]
      have hrec : r - daysInYear y < sumYears (y + 1) fuel := by
        show _ < _
        have : sumYears y (fuel + 1) = daysInYear y + sumYears (y + 1) fuel :=
          rfl
        omega
      obtain ⟨h1, h2, h3, h4⟩ := ih (y + 1) (r - daysInYear y) hrec
      refine ⟨by omega, by omega, ?_, h4⟩
      have hk : (findYear fuel (y + 1) (r - daysInYear y)).1 - y =
          ((findYear fuel (y + 1) (r - daysInYear y)).1 - (y + 1)) + 1 := by
        omega
      rw [hk]
      show r = daysInYear y + sumYears (y + 1) _ + _
      omega

theorem findMonth_spec :
    ∀ lens m r, r < lens.sum →
      m ≤ (findMonth lens m r).1 ∧
      (findMonth lens m r).1 < m + lens.length ∧
      r = (lens.take ((findMonth lens m r).1 - m)).sum +
        (findMonth lens m r).2 ∧
      (findMonth lens m r).2 < lens.getD ((findMonth lens m r).1 - m) 0 := by
  intro lens
  induction lens with
  | nil =>
    intro m r h
    simp at h
  | cons len rest ih =>
    intro m r h
    by_cases hlt : r < len
    · simp only [findMonth, if_pos hlt]
      exact ⟨le_refl m, by simp, by simp, by simpa using hlt⟩
    · simp only [findMonth, if_neg hlt]
      have hrec : r - len < rest.sum := by
        simp only [List.sum_cons] at h
        omega
      obtain ⟨h1, h2, h3, h4⟩ := ih (m + 1) (r - len) hrec
      have hk : (findMonth rest (m + 1) (r - len)).1 - m =
          ((findMonth rest (m + 1) (r - len)).1 - (m + 1)) + 1 := by
        omega
      refine ⟨by omega, by simpa using by omega, ?_, ?_⟩
      · rw [hk]
        simp only [List.take_succ_cons, List.sum_cons]
        omega
      · rw [hk]
        simpa using h4

theorem monthLengths_sum (leap : Bool) :
    (monthLengths leap).sum = if leap then 366 else 365 := by
  cases leap <;> decide

theorem daysInYear_eq_monthSum (y : Nat) :
    daysInYear y = (monthLengths (isLeap y)).sum := by
  rw [monthLengths_sum, daysInYear]

theorem sumYears_one_mono (a b : Nat) (h : a ≤ b) :
    sumYears 1 a ≤ sumYears 1 b := by
  induction b with
  | zero =>
    have : a = 0 := by omega
    subst this
    exact le_refl _
  | succ b ih =>
    by_cases hab : a = b + 1
    · subst hab
      exact le_refl _
    · have := ih (by omega)
      rw [sumYears_succ_right]
      omega

theorem monthLengths_length (leap : Bool) : (monthLengths leap).length = 12 := by
  cases leap <;> rfl

theorem monthLengths_getD_le (leap : Bool) (i : Nat) (h : i < 12) :
    (monthLengths leap).getD i 0 ≤ 31 := by
  interval_cases i <;> cases leap <;> decide

/-- Modelled from the spec: the Timestamp text form — RFC3339 UTC with
zero-padded date and time-of-day fields, fractional seconds only when the
nanosecond part is non-zero, suffix `Z`. -/
def tsChars (secs : Int) (nanos : Nat) : List Char :=
  let t : Nat := (secs + 62135596800).toNat
  let days := t / 86400
  let sod := t % 86400
  let p := findYear 10007 1 days
  let q := findMonth (monthLengths (isLeap p.1)) 1 p.2
  padNat 4 p.1 ++ ('-' :: (padNat 2 q.1 ++ ('-' :: (padNat 2 (q.2 + 1) ++
    ('T' :: (padNat 2 (sod / 3600) ++ (':' :: (padNat 2 (sod % 3600 / 60) ++
    (':' :: (padNat 2 (sod % 60) ++
    ((if nanos = 0 then [] else '.' :: fracDigitsOf nanos) ++
      ['Z'])))))))))))

/-- Reads `NNNN-NN-NN`: year, month, day and the remaining input. -/
def readDatePart (l : List Char) : Option (Nat × Nat × Nat × List Char) :=
  (readFixed 4 l).bind fun p1 =>
  (expectCh '-' p1.2).bind fun l1 =>
  (readFixed 2 l1).bind fun p2 =>
  (expectCh '-' p2.2).bind fun l2 =>
  (readFixed 2 l2).bind fun p3 =>
  some (p1.1, p2.1, p3.1, p3.2)

/-- Reads `NN:NN:NN`: hours, minutes, seconds and the remaining input. -/
def readTimePart (l : List Char) : Option (Nat × Nat × Nat × List Char) :=
  (readFixed 2 l).bind fun p1 =>
  (expectCh ':' p1.2).bind fun l1 =>
  (readFixed 2 l1).bind fun p2 =>
  (expectCh ':' p2.2).bind fun l2 =>
  (readFixed 2 l2).bind fun p3 =>
  some (p1.1, p2.1, p3.1, p3.2)

/-- Reads the optional fraction and the final `Z`, returning nanoseconds. -/
def readFracZ (l : List Char) : Option Nat :=
  if l = ['Z'] then some 0
  else if l.head? = some '.' then
    let q := takeDigits l.tail
    if q.1 = [] ∨ 9 < q.1.length then none
    else if q.2 = ['Z'] then some (digitsToNat q.1 * 10 ^ (9 - q.1.length))
    else none
  else none

/-- Modelled from the spec: parsing the RFC3339 form back into seconds
since the Unix epoch and nanoseconds, rejecting invalid calendar values. -/
def parseTimestamp (l : List Char) : Option (Int × Nat) :=
  (readDatePart l).bind fun dp =>
  (expectCh 'T' dp.2.2.2).bind fun l1 =>
  (readTimePart l1).bind fun tp =>
  (readFracZ tp.2.2.2).bind fun nanos =>
  if dp.1 = 0 ∨ 9999 < dp.1 ∨ dp.2.1 = 0 ∨ 12 < dp.2.1 ∨ dp.2.2.1 = 0 ∨
      (monthLengths (isLeap dp.1)).getD (dp.2.1 - 1) 0 < dp.2.2.1 ∨
      23 < tp.1 ∨ 59 < tp.2.1 ∨ 59 < tp.2.2.1 then none
  else
    some ((((daysBeforeYears (dp.1 - 1) +
      ((monthLengths (isLeap dp.1)).take (dp.2.1 - 1)).sum +
      (dp.2.2.1 - 1)) * 86400 +
      (tp.1 * 3600 + tp.2.1 * 60 + tp.2.2.1) : Nat) : Int) - 62135596800,
      nanos)

theorem readDatePart_fields (y mo d : Nat) (rest : List Char)
    (hy : y < 10000) (hmo : mo < 100) (hd : d < 100) :
    readDatePart (padNat 4 y ++ ('-' :: (padNat 2 mo ++ ('-' ::
      (padNat 2 d ++ rest))))) = some (y, mo, d, rest) := by
  unfold readDatePart
  rw [readFixed_padNat 4 y _ (by omega) (by norm_num; omega)]
  simp only [Option.some_bind, expectCh_cons]
  rw [readFixed_padNat 2 mo _ (by omega) (by norm_num; omega)]
  simp only [Option.some_bind, expectCh_cons]
  rw [readFixed_padNat 2 d _ (by omega) (by norm_num; omega)]
  simp only [Option.some_bind]

theorem readTimePart_fields (hh mi ss : Nat) (rest : List Char)
    (hhh : hh < 100) (hmi : mi < 100) (hss : ss < 100) :
    readTimePart (padNat 2 hh ++ (':' :: (padNat 2 mi ++ (':' ::
      (padNat 2 ss ++ rest))))) = some (hh, mi, ss, rest) := by
  unfold readTimePart
  rw [readFixed_padNat 2 hh _ (by omega) (by norm_num; omega)]
  simp only [Option.some_bind, expectCh_cons]
  rw [readFixed_padNat 2 mi _ (by omega) (by norm_num; omega)]
  simp only [Option.some_bind, expectCh_cons]
  rw [readFixed_padNat 2 ss _ (by omega) (by norm_num; omega)]
  simp only [Option.some_bind]

theorem readFracZ_fields (nanos : Nat) (hn : nanos < 1000000000) :
    readFracZ ((if nanos = 0 then [] else '.' :: fracDigitsOf nanos) ++
      ['Z']) = some nanos := by
  by_cases h0 : nanos = 0
  · subst h0
    rw [if_pos rfl]
    rfl
  · rw [if_neg h0]
    obtain ⟨hdig, hne, hlen, hval⟩ := fracDigitsOf_spec nanos h0 hn
    have htd2 : takeDigits (fracDigitsOf nanos ++ ['Z']) =
        (fracDigitsOf nanos, ['Z']) := by
      apply takeDigits_append _ _ hdig
      intro c hc
      simp only [List.head?_cons, Option.some.injEq] at hc
      subst hc
      decide
    have hzne : ¬('.' :: (fracDigitsOf nanos ++ ['Z']) = ['Z']) := by
      intro hcon
      have := congrArg List.length hcon
      simp at this
    show readFracZ ('.' :: (fracDigitsOf nanos ++ ['Z'])) = some nanos
    unfold readFracZ
    rw [if_neg hzne]
    have hq : ¬(fracDigitsOf nanos = [] ∨ 9 < (fracDigitsOf nanos).length) :=
      not_or.mpr ⟨hne, by omega⟩
    simp only [List.head?_cons, List.tail_cons, htd2]
    simp [hq, hval]

/-- Parsing the formatted field string recovers the encoded calendar
fields, for in-range field values. -/
theorem parseTimestamp_fields (y mo d hh mi ss nanos : Nat)
    (hy : 1 ≤ y) (hy2 : y ≤ 9999) (hmo : 1 ≤ mo) (hmo2 : mo ≤ 12)
    (hd : 1 ≤ d) (hd2 : d ≤ (monthLengths (isLeap y)).getD (mo - 1) 0)
    (hd3 : d ≤ 31)
    (hhh : hh ≤ 23) (hmi : mi ≤ 59) (hss : ss ≤ 59)
    (hn : nanos < 1000000000) :
    parseTimestamp (padNat 4 y ++ ('-' :: (padNat 2 mo ++ ('-' ::
      (padNat 2 d ++ ('T' :: (padNat 2 hh ++ (':' :: (padNat 2 mi ++
      (':' :: (padNat 2 ss ++
      ((if nanos = 0 then [] else '.' :: fracDigitsOf nanos) ++
        ['Z'])))))))))))) =
      some ((((daysBeforeYears (y - 1) +
        ((monthLengths (isLeap y)).take (mo - 1)).sum + (d - 1)) * 86400 +
        (hh * 3600 + mi * 60 + ss) : Nat) : Int) - 62135596800, nanos) := by
  unfold parseTimestamp
  rw [readDatePart_fields y mo d _ (by omega) (by omega) (by omega)]
  simp only [Option.some_bind, expectCh_cons]
  rw [readTimePart_fields hh mi ss _ (by omega) (by omega) (by omega)]
  simp only [Option.some_bind]
  rw [readFracZ_fields nanos hn]
  simp only [Option.some_bind]
  rw [if_neg (by
    push_neg
    refine ⟨by omega, by omega, by omega, by omega, by omega, by omega,
      by omega, by omega, by omega⟩)]

set_option maxHeartbeats 1000000 in
/-- Parsing the RFC3339 text inverts formatting, for timestamps within the
mapping's year range `0001..9999` and in-range nanoseconds. -/
theorem timestamp_roundtrip (secs : Int) (nanos : Nat)
    (hlo : -62135596800 ≤ secs) (hhi : secs < 253402300800)
    (hn : nanos < 1000000000) :
    parseTimestamp (tsChars secs nanos) = some (secs, nanos) := by
  have ht : ((secs + 62135596800).toNat : Int) = secs + 62135596800 := by
    omega
  have htb : (secs + 62135596800).toNat < 315537897600 := by omega
  set t := (secs + 62135596800).toNat with htdef
  have hfuel : t / 86400 < sumYears 1 10007 := by
    have := sumYears_lb 1 10007
    omega
  obtain ⟨hy1, hy2, hy3, hy4⟩ := findYear_spec 10007 1 (t / 86400) hfuel
  set p := findYear 10007 1 (t / 86400) with hpdef
  have hd9999 : daysBeforeYears 9999 = 3652059 := by
    norm_num [daysBeforeYears]
  have hy9999 : p.1 ≤ 9999 := by
    by_contra hcon
    have h1 : 9999 ≤ p.1 - 1 := by omega
    have h2 := sumYears_one_mono 9999 _ h1
    rw [sumYears_one_closed 9999, hd9999] at h2
    omega
  have hr : p.2 < (monthLengths (isLeap p.1)).sum := by
    rw [← daysInYear_eq_monthSum]
    exact hy4
  obtain ⟨hm1, hm2, hm3, hm4⟩ := findMonth_spec _ 1 _ hr
  set q := findMonth (monthLengths (isLeap p.1)) 1 p.2 with hqdef
  rw [monthLengths_length] at hm2
  have hdle := monthLengths_getD_le (isLeap p.1) (q.1 - 1) (by omega)
  have hyd := sumYears_one_closed (p.1 - 1)
  simp only [tsChars]
  rw [← htdef, ← hpdef, ← hqdef]
  rw [parseTimestamp_fields p.1 q.1 (q.2 + 1) (t % 86400 / 3600)
    (t % 86400 % 3600 / 60) (t % 86400 % 60) nanos
    (by omega) hy9999 hm1 (by omega) (by omega) (by omega) (by omega)
    (by omega) (by omega) (by omega) hn]
  have hdayeq : daysBeforeYears (p.1 - 1) +
      ((monthLengths (isLeap p.1)).take (q.1 - 1)).sum + (q.2 + 1 - 1) =
      t / 86400 := by
    rw [← hyd]
    omega
  rw [hdayeq]
  have : (t / 86400 * 86400 +
      (t % 86400 / 3600 * 3600 + t % 86400 % 3600 / 60 * 60 +
        t % 86400 % 60) : Nat) = t := by
    omega
  rw [this, Option.some.injEq, Prod.mk.injEq]
  exact ⟨by omega, rfl⟩

/-! ### Field kinds and values (§4.6)

The generated per-field serializers are not in `src/`; the model below is
built from the §4.5/§4.6 mapping rules, one constructor per field-kind row
of the table, under the default configuration. -/

/-- The 32-bit-class scalar kinds plus the string-encoded 64-bit integers. -/
inductive ScalarKind where
  | sBool | sI32 | sStr | sI64
  deriving DecidableEq, Repr

/-- A scalar value. -/
inductive ScalarValue where
  | b (v : Bool)
  | i (v : Int)
  | s (v : String)
  deriving DecidableEq, Repr

/-- A `google.protobuf.Value` tree. -/
inductive PV where
  | pnull
  | pnum (n : Int)
  | pstr (s : String)
  | pbool (b : Bool)
  | pstruct (fields : List (String × PV))
  | plist (elems : List PV)

/-- A field kind, one per row of the §4.6 table.  A message kind carries
its declared field list (names with kinds); a oneof group is a pseudo-field
carrying its members. -/
inductive FieldKind where
  | scalar (k : ScalarKind)
  | bytes
  | enum (values : List (Int × String))
  | msg (fields : List (String × FieldKind))
  | repeated (k : FieldKind)
  | map (key : ScalarKind) (value : FieldKind)
  | oneof (members : List (String × FieldKind))
  | wrapper (k : ScalarKind)
  | duration
  | timestamp
  | structK
  | valueK
  | listValueK
  | fieldMask
  | anyK

/-- A field value.  Message-typed kinds carry an `Option` for presence;
an `Any` value is a type URL with either a registered message's field
values or opaque bytes. -/
inductive FieldValue where
  | vScalar (v : ScalarValue)
  | vBytes (bs : List Nat)
  | vEnum (n : Int)
  | vMsg (vals : Option (List FieldValue))
  | vList (elems : List FieldValue)
  | vMap (entries : List (ScalarValue × FieldValue))
  | vOneof (which : Option (Nat × FieldValue))
  | vWrap (v : Option ScalarValue)
  | vDuration (dur : Option (Int × Int))
  | vTimestamp (ts : Option (Int × Nat))
  | vStruct (sv : Option (List (String × PV)))
  | vValue (pv : Option PV)
  | vListValue (lv : Option (List PV))
  | vMask (paths : Option (List String))
  | vAny (a : Option (String × (List FieldValue ⊕ List Nat)))

/-- The JSON name of a declared field (default configuration:
lowerCamelCase). -/
def jsonName (s : String) : String := String.mk (camelChars s.data)

/-- The zero value of each scalar kind. -/
def scalarZero : ScalarKind → ScalarValue
  | .sBool => .b false
  | .sI32 => .i 0
  | .sStr => .s ""
  | .sI64 => .i 0

/-- Does the scalar value fit the scalar kind? -/
def scalarOkB : ScalarKind → ScalarValue → Bool
  | .sBool, .b _ => true
  | .sI32, .i _ => true
  | .sStr, .s _ => true
  | .sI64, .i _ => true
  | _, _ => false

/-- Decimal text of an integer. -/
def intDigits (n : Int) : List Char :=
  if n < 0 then '-' :: natDigits n.natAbs else natDigits n.natAbs

/-- Parses the decimal text of an integer; the whole input must be
consumed. -/
def parseIntChars (l : List Char) : Option Int :=
  if l.head? = some '-' then
    let q := takeDigits l.tail
    if q.1 = [] ∨ ¬(q.2 = []) then none
    else some (-(digitsToNat q.1 : Int))
  else
    let q := takeDigits l
    if q.1 = [] ∨ ¬(q.2 = []) then none
    else some ((digitsToNat q.1 : Int))

theorem takeDigits_all (l : List Char) (h : ∀ c ∈ l, isDigitCh c = true) :
    takeDigits l = (l, []) := by
  have := takeDigits_append l [] h (by intro c hc; simp at hc)
  simpa using this

theorem parseIntChars_intDigits (n : Int) :
    parseIntChars (intDigits n) = some n := by
  by_cases hneg : n < 0
  · rw [intDigits, if_pos hneg]
    rw [parseIntChars]
    rw [if_pos (by simp)]
    simp only [List.tail_cons, takeDigits_all _ (natDigits_digits n.natAbs)]
    rw [if_neg (by simp [natDigits_ne_nil n.natAbs])]
    rw [digitsToNat_natDigits]
    congr 1
    omega
  · rw [intDigits, if_neg hneg]
    obtain ⟨d, t, hd⟩ : ∃ d t, natDigits n.natAbs = d :: t := by
      cases hnd : natDigits n.natAbs with
      | nil => exact absurd hnd (natDigits_ne_nil _)
      | cons d t => exact ⟨d, t, rfl⟩
    have hddig : isDigitCh d = true := by
      apply natDigits_digits n.natAbs
      rw [hd]
      exact List.mem_cons_self _ _
    have hdne : ¬(natDigits n.natAbs).head? = some '-' := by
      rw [hd]
      simp only [List.head?_cons, Option.some.injEq]
      intro hcon
      subst hcon
      simp [isDigitCh] at hddig
    rw [parseIntChars, if_neg hdne]
    simp only [takeDigits_all _ (natDigits_digits n.natAbs)]
    rw [if_neg (by simp [natDigits_ne_nil n.natAbs])]
    rw [digitsToNat_natDigits]
    congr 1
    omega

/-- JSON encoding of a scalar: literal value, except 64-bit integers which
become decimal strings (§4.6). -/
def encodeScalar : ScalarKind → ScalarValue → Except String Json
  | .sBool, .b v => .ok (.bool v)
  | .sI32, .i v => .ok (.num v)
  | .sStr, .s v => .ok (.str v)
  | .sI64, .i v => .ok (.str (String.mk (intDigits v)))
  | _, _ => .error "scalar kind mismatch"

/-- JSON decoding of a scalar: literal value; a 64-bit integer accepts a
string or a number, rejecting non-numeric strings. -/
def decodeScalar : ScalarKind → Json → Except String ScalarValue
  | .sBool, .bool v => .ok (.b v)
  | .sI32, .num v => .ok (.i v)
  | .sStr, .str v => .ok (.s v)
  | .sI64, .str t =>
    match parseIntChars t.data with
    | some v => .ok (.i v)
    | none => .error "MalformedValue"
  | .sI64, .num v => .ok (.i v)
  | _, _ => .error "unexpected JSON value"

theorem scalar_roundtrip (sk : ScalarKind) (sv : ScalarValue)
    (h : scalarOkB sk sv = true) :
    ∃ j, encodeScalar sk sv = .ok j ∧ decodeScalar sk j = .ok sv := by
  cases sk <;> cases sv <;> simp [scalarOkB] at h <;>
    simp [encodeScalar, decodeScalar]
  show (match parseIntChars (String.mk (intDigits _)).data with
    | some v => Except.ok (ScalarValue.i v)
    | none => Except.error "MalformedValue") = _
  rw [show (String.mk (intDigits _)).data = intDigits _ from rfl,
    parseIntChars_intDigits]

/-- The object key of a map entry: the key scalar stringified (§4.6). -/
def keyString : ScalarValue → String
  | .b true => "true"
  | .b false => "false"
  | .i n => String.mk (intDigits n)
  | .s s => s

/-- Parses a map key back to the declared key kind (§4.6). -/
def parseKey : ScalarKind → String → Except String ScalarValue
  | .sBool, s =>
    if s = "true" then .ok (.b true)
    else if s = "false" then .ok (.b false)
    else .error "MalformedValue"
  | .sI32, s =>
    match parseIntChars s.data with
    | some v => .ok (.i v)
    | none => .error "MalformedValue"
  | .sI64, s =>
    match parseIntChars s.data with
    | some v => .ok (.i v)
    | none => .error "MalformedValue"
  | .sStr, s => .ok (.s s)

theorem parseKey_keyString (sk : ScalarKind) (sv : ScalarValue)
    (h : scalarOkB sk sv = true) :
    parseKey sk (keyString sv) = .ok sv := by
  cases sk <;> cases sv <;> simp [scalarOkB] at h
  case sBool.b v => cases v <;> rfl
  case sI32.i v =>
    show (match parseIntChars (String.mk (intDigits v)).data with
      | some v => Except.ok (ScalarValue.i v)
      | none => Except.error "MalformedValue") = _
    rw [show (String.mk (intDigits v)).data = intDigits v from rfl,
      parseIntChars_intDigits]
  case sStr.s v => rfl
  case sI64.i v =>
    show (match parseIntChars (String.mk (intDigits v)).data with
      | some v => Except.ok (ScalarValue.i v)
      | none => Except.error "MalformedValue") = _
    rw [show (String.mk (intDigits v)).data = intDigits v from rfl,
      parseIntChars_intDigits]

/-- Canonical name of an enum number: first declared name (§4.5). -/
def encodeEnumVal (tbl : List (Int × String)) (n : Int) :
    Except String Json :=
  match tbl.find? (fun e => e.1 == n) with
  | some e => .ok (.str e.2)
  | none => .error "invalid enum value"

/-- Enum decoding: a known name string, or any integer (openness rule,
§4.5). -/
def decodeEnumVal (tbl : List (Int × String)) : Json → Except String Int
  | .str s =>
    match tbl.find? (fun e => e.2 == s) with
    | some e => .ok e.1
    | none => .error "unknown enum name"
  | .num v => .ok v
  | _ => .error "unexpected JSON value"

theorem enum_roundtrip (tbl : List (Int × String)) (n : Int)
    (hnodup : (tbl.map Prod.snd).Nodup)
    (hmem : ∃ e ∈ tbl, e.1 = n) :
    ∃ j, encodeEnumVal tbl n = .ok j ∧ decodeEnumVal tbl j = .ok n := by
  have hsome : (tbl.find? (fun e => e.1 == n)).isSome := by
    rw [List.find?_isSome]
    obtain ⟨e, he, hev⟩ := hmem
    exact ⟨e, he, by simp [hev]⟩
  obtain ⟨e, hfind⟩ := Option.isSome_iff_exists.mp hsome
  have hev : e.1 = n := by
    have := List.find?_some hfind
    simpa using this
  have hemem : e ∈ tbl := List.mem_of_find?_eq_some hfind
  refine ⟨.str e.2, by rw [encodeEnumVal, hfind], ?_⟩
  have hsome2 : (tbl.find? (fun x => x.2 == e.2)).isSome := by
    rw [List.find?_isSome]
    exact ⟨e, hemem, by simp⟩
  obtain ⟨e2, hfind2⟩ := Option.isSome_iff_exists.mp hsome2
  have he2name : e2.2 = e.2 := by
    have := List.find?_some hfind2
    simpa using this
  have he2mem : e2 ∈ tbl := List.mem_of_find?_eq_some hfind2
  have : e2 = e := by
    apply List.inj_on_of_nodup_map hnodup he2mem hemem
    exact he2name
  rw [decodeEnumVal, hfind2, this]
  show Except.ok e.1 = Except.ok n
  rw [hev]

/-! ### FieldMask text form -/

/-- Comma-joined camelCase path segments (§4.6). -/
def maskChars (paths : List String) : List Char :=
  joinComma (paths.map (fun p => camelChars p.data))

/-- Parses a FieldMask string back to underscore-form paths, failing on
empty path segments. -/
def decodeMaskStr (t : String) : Except String (List String) :=
  if t.data = [] then .ok []
  else
    let segs := splitComma t.data
    if segs.any (fun g => g.isEmpty) then .error "MalformedValue"
    else .ok (segs.map (fun g => String.mk (snakeChars g)))

theorem chUpper_ne_comma (c : Char) (h : isLowerCh c = true) :
    chUpper c ≠ ',' := by
  intro heq
  have := isUpperCh_chUpper c h
  rw [heq] at this
  simp [isUpperCh] at this

theorem camelChars_no_comma_aux (n : Nat) :
    ∀ l : List Char, l.length ≤ n → canonSnake l = true →
      ∀ c ∈ camelChars l, c ≠ ',' := by
  induction n with
  | zero =>
    intro l hlen _ c hc
    have : l = [] := List.length_eq_zero.mp (by omega)
    subst this
    simp [camelChars] at hc
  | succ n ih =>
    intro l hlen hcanon c hc
    match l with
    | [] => simp [camelChars] at hc
    | c0 :: rest =>
      rw [canonSnake_cons, Bool.and_eq_true] at hcanon
      obtain ⟨hchead, hcrest⟩ := hcanon
      by_cases hund : c0 = '_'
      · subst hund
        rw [if_pos rfl] at hchead
        match rest with
        | [] => exact absurd hchead (by simp)
        | c1 :: rest' =>
          simp only [List.head?_cons] at hchead
          rw [canonSnake_cons, Bool.and_eq_true] at hcrest
          obtain ⟨_, hcrest'⟩ := hcrest
          rw [camelChars_underscore] at hc
          rcases List.mem_cons.mp hc with hc | hc
          · subst hc
            exact chUpper_ne_comma c1 hchead
          · exact ih rest' (by simp only [List.length_cons] at hlen; omega)
              hcrest' c hc
      · rw [if_neg hund] at hchead
        rw [camelChars_cons c0 rest hund] at hc
        rcases List.mem_cons.mp hc with hc | hc
        · subst hc
          rcases Bool.or_eq_true _ _ |>.mp hchead with h | h
          · rcases Bool.or_eq_true _ _ |>.mp h with h | h
            · intro heq
              subst heq
              simp [isLowerCh] at h
            · intro heq
              subst heq
              simp [isDigitCh] at h
          · have : c = '.' := by simpa using h
            subst this
            decide
        · exact ih rest (by simp only [List.length_cons] at hlen; omega)
            hcrest c hc

theorem camelChars_no_comma (l : List Char) (h : canonSnake l = true) :
    ∀ c ∈ camelChars l, c ≠ ',' :=
  camelChars_no_comma_aux l.length l (le_refl _) h

theorem camelChars_ne_nil (l : List Char) (hne : l ≠ [])
    (h : canonSnake l = true) : camelChars l ≠ [] := by
  match l with
  | [] => exact absurd rfl hne
  | c0 :: rest =>
    rw [canonSnake_cons, Bool.and_eq_true] at h
    obtain ⟨hchead, _⟩ := h
    by_cases hund : c0 = '_'
    · subst hund
      rw [if_pos rfl] at hchead
      match rest with
      | [] => exact absurd hchead (by simp)
      | c1 :: rest' =>
        rw [camelChars_underscore]
        simp
    · rw [camelChars_cons c0 rest hund]
      simp

theorem joinComma_ne_nil (p : List Char) (ps : List (List Char))
    (h : p ≠ []) : joinComma (p :: ps) ≠ [] := by
  match ps with
  | [] => simpa [joinComma] using h
  | q :: ps' =>
    show ¬(p ++ ',' :: joinComma (q :: ps')) = []
    simp [h]

theorem map_id_on (f : α → α) : ∀ l : List α, (∀ a ∈ l, f a = a) →
    l.map f = l := by
  intro l
  induction l with
  | nil => intro _; rfl
  | cons a l ih =>
    intro h
    rw [List.map_cons, h a (List.mem_cons_self _ _),
      ih (fun x hx => h x (List.mem_cons_of_mem _ hx))]

/-- Decoding a FieldMask string inverts encoding, for canonical non-empty
snake-case paths. -/
theorem mask_roundtrip (paths : List String)
    (h : ∀ p ∈ paths, canonSnake p.data = true ∧ p ≠ "") :
    decodeMaskStr (String.mk (maskChars paths)) = .ok paths := by
  match paths with
  | [] => rfl
  | p :: ps =>
    have hcamel : ∀ q ∈ (p :: ps : List String),
        camelChars q.data ≠ [] ∧ (∀ c ∈ camelChars q.data, c ≠ ',') := by
      intro q hq
      obtain ⟨hc, hne⟩ := h q hq
      refine ⟨camelChars_ne_nil q.data ?_ hc, camelChars_no_comma q.data hc⟩
      intro hcon
      apply hne
      have : q.data = ("" : String).data := hcon
      exact String.ext this
    have hjoin : splitComma (maskChars (p :: ps)) =
        (p :: ps).map (fun q => camelChars q.data) := by
      apply splitComma_joinComma
      · simp
      · intro g hg
        obtain ⟨q, hq, rfl⟩ := List.mem_map.mp hg
        exact (hcamel q hq).2
    have hne0 : maskChars (p :: ps) ≠ [] := by
      show joinComma (camelChars p.data :: ps.map (fun q => camelChars q.data)) ≠ []
      exact joinComma_ne_nil _ _ (hcamel p (List.mem_cons_self _ _)).1
    have hne0' : ¬(String.mk (maskChars (p :: ps))).data = [] := hne0
    have hjoin' : splitComma (String.mk (maskChars (p :: ps))).data =
        (p :: ps).map (fun q => camelChars q.data) := hjoin
    have hany : ¬(((p :: ps).map (fun q => camelChars q.data)).any
        (fun g => g.isEmpty) = true) := by
      intro hcon
      obtain ⟨g, hg, hemp⟩ := List.any_eq_true.mp hcon
      obtain ⟨q, hq, rfl⟩ := List.mem_map.mp hg
      have := (hcamel q hq).1
      rw [List.isEmpty_iff] at hemp
      exact this hemp
    simp only [decodeMaskStr]
    rw [if_neg hne0', hjoin', if_neg hany]
    rw [List.map_map]
    congr 1
    apply map_id_on
    intro q hq
    show String.mk (snakeChars (camelChars q.data)) = q
    rw [snake_camel q.data (h q hq).1]

/-! ### Monadic list helpers -/

/-- Element-wise fallible map. -/
def mapMList (f : α → Except String β) : List α → Except String (List β)
  | [] => .ok []
  | a :: l => do
    let b ← f a
    let rest ← mapMList f l
    .ok (b :: rest)

/-- Fallible map over the second components of pairs. -/
def mapMSnd (f : α → Except String β) :
    List (γ × α) → Except String (List (γ × β))
  | [] => .ok []
  | p :: l => do
    let b ← f p.2
    let rest ← mapMSnd f l
    .ok ((p.1, b) :: rest)

theorem mapMList_roundtrip (f : α → Except String β)
    (g : β → Except String α) (l : List α)
    (h : ∀ a ∈ l, ∃ b, f a = .ok b ∧ g b = .ok a) :
    ∃ bl, mapMList f l = .ok bl ∧ mapMList g bl = .ok l := by
  induction l with
  | nil => exact ⟨[], rfl, rfl⟩
  | cons a l ih =>
    obtain ⟨b, hfa, hgb⟩ := h a (List.mem_cons_self _ _)
    obtain ⟨bl, hfl, hgl⟩ := ih (fun x hx => h x (List.mem_cons_of_mem _ hx))
    refine ⟨b :: bl, ?_, ?_⟩
    · simp only [mapMList, hfa, hfl]
      rfl
    · simp only [mapMList, hgb, hgl]
      rfl

theorem mapMSnd_roundtrip (f : α → Except String β)
    (g : β → Except String α) (l : List (γ × α))
    (h : ∀ p ∈ l, ∃ b, f p.2 = .ok b ∧ g b = .ok p.2) :
    ∃ bl, mapMSnd f l = .ok bl ∧ mapMSnd g bl = .ok l := by
  induction l with
  | nil => exact ⟨[], rfl, rfl⟩
  | cons p l ih =>
    obtain ⟨b, hfa, hgb⟩ := h p (List.mem_cons_self _ _)
    obtain ⟨bl, hfl, hgl⟩ := ih (fun x hx => h x (List.mem_cons_of_mem _ hx))
    refine ⟨(p.1, b) :: bl, ?_, ?_⟩
    · simp only [mapMSnd, hfa, hfl]
      rfl
    · simp only [mapMSnd, hgb, hgl]
      rfl

/-! ### Struct / Value / ListValue -/

/-- Modelled from the spec: the recursive polymorphic mapping of
`google.protobuf.Value` to a generic JSON value (§4.6). -/
def encodePV : Nat → PV → Except String Json
  | 0, _ => .error "recursion depth"
  | fuel + 1, pv =>
    match pv with
    | .pnull => .ok .null
    | .pnum n => .ok (.num n)
    | .pstr s => .ok (.str s)
    | .pbool b => .ok (.bool b)
    | .pstruct fs => (mapMSnd (encodePV fuel) fs).map Json.obj
    | .plist l => (mapMList (encodePV fuel) l).map Json.arr

/-- Modelled from the spec: the inverse recursive decode of a generic JSON
value into `google.protobuf.Value` (§4.6). -/
def decodePV : Nat → Json → Except String PV
  | 0, _ => .error "recursion depth"
  | fuel + 1, j =>
    match j with
    | .null => .ok .pnull
    | .num n => .ok (.pnum n)
    | .str s => .ok (.pstr s)
    | .bool b => .ok (.pbool b)
    | .obj entries => (mapMSnd (decodePV fuel) entries).map .pstruct
    | .arr elems => (mapMList (decodePV fuel) elems).map .plist

/-- Fuel sufficiency for a `Value` tree. -/
def okPV : Nat → PV → Bool
  | 0, _ => false
  | fuel + 1, pv =>
    match pv with
    | .pstruct fs => fs.all (fun p => okPV fuel p.2)
    | .plist l => l.all (fun e => okPV fuel e)
    | _ => true

theorem pv_roundtrip : ∀ (fuel : Nat) (pv : PV), okPV fuel pv = true →
    ∃ j, encodePV fuel pv = .ok j ∧ decodePV fuel j = .ok pv := by
  intro fuel
  induction fuel with
  | zero =>
    intro pv h
    simp [okPV] at h
  | succ fuel ih =>
    intro pv h
    match pv with
    | .pnull => exact ⟨.null, rfl, rfl⟩
    | .pnum n => exact ⟨.num n, rfl, rfl⟩
    | .pstr s => exact ⟨.str s, rfl, rfl⟩
    | .pbool b => exact ⟨.bool b, rfl, rfl⟩
    | .pstruct fs =>
      simp only [okPV, List.all_eq_true] at h
      obtain ⟨bl, henc, hdec⟩ := mapMSnd_roundtrip (encodePV fuel)
        (decodePV fuel) fs (fun p hp => ih p.2 (h p hp))
      refine ⟨.obj bl, ?_, ?_⟩
      · simp only [encodePV, henc]
        rfl
      · simp only [decodePV, hdec]
        rfl
    | .plist l =>
      simp only [okPV, List.all_eq_true] at h
      obtain ⟨bl, henc, hdec⟩ := mapMList_roundtrip (encodePV fuel)
        (decodePV fuel) l (fun e he => ih e (h e he))
      refine ⟨.arr bl, ?_, ?_⟩
      · simp only [encodePV, henc]
        rfl
      · simp only [decodePV, hdec]
        rfl

/-! ### The message codec (default configuration) -/

/-- The zero value of each field kind (what decoding a missing key
produces). -/
def zeroFV : FieldKind → FieldValue
  | .scalar k => .vScalar (scalarZero k)
  | .bytes => .vBytes []
  | .enum _ => .vEnum 0
  | .msg _ => .vMsg none
  | .repeated _ => .vList []
  | .map _ _ => .vMap []
  | .oneof _ => .vOneof none
  | .wrapper _ => .vWrap none
  | .duration => .vDuration none
  | .timestamp => .vTimestamp none
  | .structK => .vStruct none
  | .valueK => .vValue none
  | .listValueK => .vListValue none
  | .fieldMask => .vMask none
  | .anyK => .vAny none

/-- Is the value its kind's default, so that the key is omitted under the
default configuration?  Wrapper fields are always emitted (`null` when
absent, §4.6). -/
def isDefaultFV : FieldKind → FieldValue → Bool
  | .scalar k, .vScalar v => v == scalarZero k
  | .bytes, .vBytes bs => bs.isEmpty
  | .enum _, .vEnum n => n == 0
  | .msg _, .vMsg o => o.isNone
  | .repeated _, .vList l => l.isEmpty
  | .map _ _, .vMap l => l.isEmpty
  | .oneof _, .vOneof o => o.isNone
  | .wrapper _, _ => false
  | .duration, .vDuration o => o.isNone
  | .timestamp, .vTimestamp o => o.isNone
  | .structK, .vStruct o => o.isNone
  | .valueK, .vValue o => o.isNone
  | .listValueK, .vListValue o => o.isNone
  | .fieldMask, .vMask o => o.isNone
  | .anyK, .vAny o => o.isNone
  | _, _ => false

/-- A value usable in value position (list element, map value, oneof
member): message-typed kinds must be present. -/
def isPresentFV : FieldValue → Bool
  | .vMsg none => false
  | .vDuration none => false
  | .vTimestamp none => false
  | .vStruct none => false
  | .vValue none => false
  | .vListValue none => false
  | .vMask none => false
  | .vAny none => false
  | .vOneof _ => false
  | _ => true

/-- Oneof groups cannot nest. -/
def notOneofB : FieldKind → Bool
  | .oneof _ => false
  | _ => true

/-- The member list of a oneof kind, `none` for every other kind. -/
def oneofMembersOf : FieldKind → Option (List (String × FieldKind))
  | .oneof ms => some ms
  | _ => none

/-- Is the kind `google.protobuf.Value`? -/
def isValueK : FieldKind → Bool
  | .valueK => true
  | _ => false

/-- The JSON keys a declared field can emit: its own JSON name, or its
members' names for a oneof group. -/
def ownNames (f : String × FieldKind) : List String :=
  match oneofMembersOf f.2 with
  | some ms => ms.map (fun m => jsonName m.1)
  | none => [jsonName f.1]

/-- All JSON keys of a message schema. -/
def fieldNames (fields : List (String × FieldKind)) : List String :=
  (fields.map ownNames).flatten

/-- Schema sanity: distinct JSON keys, no `@type` key, no nested oneofs. -/
def schemaOkB (fields : List (String × FieldKind)) : Bool :=
  decide ((fieldNames fields).Nodup) &&
  !((fieldNames fields).contains "@type") &&
  fields.all (fun f =>
    match f.2 with
    | .oneof ms => ms.all (fun m => notOneofB m.2)
    | _ => true)

/-- The registry resolving `Any` type URLs to message schemas. -/
abbrev AnyRegistry := List (String × List (String × FieldKind))

/-- First schema registered under the URL. -/
def lookupReg (reg : AnyRegistry) (url : String) :
    Option (List (String × FieldKind)) :=
  (reg.find? (fun e => e.1 == url)).map (fun e => e.2)

/-- First value under the key in a JSON object. -/
def lookupJson (obj : List (String × Json)) (nm : String) : Option Json :=
  (obj.find? (fun e => e.1 == nm)).map (fun e => e.2)

/-- The key/value contributions of one declared field to the encoded
object: nothing for a default value, the single pair otherwise; a oneof
group contributes its present member under the member's own name. -/
def fieldEntries (enc : FieldKind → FieldValue → Except String Json)
    (nm : String) (k : FieldKind) (v : FieldValue) :
    Except String (List (String × Json)) :=
  match oneofMembersOf k, v with
  | some _, .vOneof none => .ok []
  | some members, .vOneof (some iv) =>
    match members.get? iv.1 with
    | some m => (enc m.2 iv.2).map (fun j => [(jsonName m.1, j)])
    | none => .error "oneof index out of range"
  | some _, _ => .error "kind mismatch"
  | none, _ =>
    if isDefaultFV k v then .ok []
    else (enc k v).map (fun j => [(jsonName nm, j)])

/-- All contributions of the schema's fields, in declaration order. -/
def encodeEntries (enc : FieldKind → FieldValue → Except String Json) :
    List (String × FieldKind) → List FieldValue →
      Except String (List (String × Json))
  | [], [] => .ok []
  | f :: fs, v :: vs => do
    let e ← fieldEntries enc f.1 f.2 v
    let rest ← encodeEntries enc fs vs
    .ok (e ++ rest)
  | _, _ => .error "field arity mismatch"

/-- Is any of the members' keys present in the object? -/
def anyMemberPresent (obj : List (String × Json))
    (ms : List (String × FieldKind)) : Bool :=
  ms.any (fun m => (lookupJson obj (jsonName m.1)).isSome)

/-- Scans the members of a oneof group: at most one key may be present
(`ConflictingOneof` otherwise); the present member is decoded. -/
def findOneof (dec : FieldKind → Json → Except String FieldValue)
    (obj : List (String × Json)) :
    List (String × FieldKind) → Nat → Except String (Option (Nat × FieldValue))
  | [], _ => .ok none
  | m :: ms, i =>
    match lookupJson obj (jsonName m.1) with
    | some j =>
      if anyMemberPresent obj ms then .error "ConflictingOneof"
      else (dec m.2 j).map (fun v => some (i, v))
    | none => findOneof dec obj ms (i + 1)

/-- Decodes one declared field from the object: a missing key yields the
zero value, an explicit `null` clears the field (except for `Value`, where
`null` is the null value). -/
def decodeFieldEntry (dec : FieldKind → Json → Except String FieldValue)
    (nm : String) (k : FieldKind) (obj : List (String × Json)) :
    Except String FieldValue :=
  match oneofMembersOf k with
  | some members => (findOneof dec obj members 0).map .vOneof
  | none =>
    match lookupJson obj (jsonName nm) with
    | none => .ok (zeroFV k)
    | some .null =>
      if isValueK k then .ok (.vValue (some .pnull)) else .ok (zeroFV k)
    | some j => dec k j

/-- Decodes every declared field against the object, in declaration
order. -/
def decodeEntries (dec : FieldKind → Json → Except String FieldValue)
    (obj : List (String × Json)) :
    List (String × FieldKind) → Except String (List FieldValue)
  | [] => .ok []
  | f :: fs => do
    let v ← decodeFieldEntry dec f.1 f.2 obj
    let rest ← decodeEntries dec obj fs
    .ok (v :: rest)

/-- Message-object decode: unknown keys are an error under the default
configuration. -/
def decodeMsgObj (dec : FieldKind → Json → Except String FieldValue)
    (fields : List (String × FieldKind)) (obj : List (String × Json)) :
    Except String (List FieldValue) :=
  if obj.all (fun e => decide (e.1 ∈ fieldNames fields)) then
    decodeEntries dec obj fields
  else .error "UnknownField"

/-- Map entries: the key stringified, the value encoded. -/
def encodeMapPairs (encV : FieldValue → Except String Json) :
    List (ScalarValue × FieldValue) → Except String (List (String × Json))
  | [] => .ok []
  | e :: l => do
    let j ← encV e.2
    let rest ← encodeMapPairs encV l
    .ok ((keyString e.1, j) :: rest)

/-- Map entries: keys parsed back to the declared key kind. -/
def decodeMapPairs (kk : ScalarKind)
    (decV : Json → Except String FieldValue) :
    List (String × Json) → Except String (List (ScalarValue × FieldValue))
  | [] => .ok []
  | e :: l => do
    let sv ← parseKey kk e.1
    let v ← decV e.2
    let rest ← decodeMapPairs kk decV l
    .ok ((sv, v) :: rest)

/-- The `Any` object: `@type` plus the resolved message's fields inline, or
the generic base64 `value` form when the URL is not registered (§4.6). -/
def encodeAnyBody
    (encE : List (String × FieldKind) → List FieldValue →
      Except String (List (String × Json)))
    (reg : AnyRegistry) (url : String)
    (body : List FieldValue ⊕ List Nat) : Except String Json :=
  match body with
  | .inl vals =>
    match lookupReg reg url with
    | some fields =>
      (encE fields vals).map (fun entries =>
        .obj (("@type", .str url) :: entries))
    | none => .error "Any type not in registry"
  | .inr bs =>
    .ok (.obj [("@type", .str url),
      ("value", .str (String.mk (b64Encode bs)))])

/-- The inverse: look up `@type`, decode the remaining keys as the resolved
message, or read the generic `value` form. -/
def decodeAny
    (decM : List (String × FieldKind) → List (String × Json) →
      Except String (List FieldValue))
    (reg : AnyRegistry) (j : Json) :
    Except String (String × (List FieldValue ⊕ List Nat)) :=
  match j with
  | .obj entries =>
    match lookupJson entries "@type" with
    | some (.str url) =>
      (match lookupReg reg url with
       | some fields =>
         (decM fields (entries.filter (fun e => !(e.1 == "@type")))).map
           (fun vals => (url, .inl vals))
       | none =>
         match entries.filter (fun e => !(e.1 == "@type")) with
         | [(nm, .str s)] =>
           if nm = "value" then
             match b64Decode s.data with
             | some bs => .ok (url, .inr bs)
             | none => .error "MalformedValue"
           else .error "malformed Any"
         | _ => .error "malformed Any")
    | _ => .error "Any without @type"
  | _ => .error "unexpected JSON value"

/-- Modelled from the spec: the generated per-field encoder, one case per
§4.6 row, recursion depth bounded by fuel. -/
def encodeFV (reg : AnyRegistry) : Nat → FieldKind → FieldValue →
    Except String Json
  | 0, _, _ => .error "recursion depth"
  | fuel + 1, k, v =>
    match k, v with
    | .scalar sk, .vScalar sv => encodeScalar sk sv
    | .bytes, .vBytes bs => .ok (.str (String.mk (b64Encode bs)))
    | .enum tbl, .vEnum n => encodeEnumVal tbl n
    | .msg fields, .vMsg (some vals) =>
      (encodeEntries (encodeFV reg fuel) fields vals).map Json.obj
    | .repeated k', .vList elems =>
      (mapMList (encodeFV reg fuel k') elems).map Json.arr
    | .map _ vk, .vMap entries =>
      (encodeMapPairs (encodeFV reg fuel vk) entries).map Json.obj
    | .wrapper _, .vWrap none => .ok .null
    | .wrapper sk, .vWrap (some sv) => encodeScalar sk sv
    | .duration, .vDuration (some d) =>
      .ok (.str (String.mk (durationChars d.1 d.2)))
    | .timestamp, .vTimestamp (some t) =>
      .ok (.str (String.mk (tsChars t.1 t.2)))
    | .structK, .vStruct (some fs) => (mapMSnd (encodePV fuel) fs).map Json.obj
    | .valueK, .vValue (some pv) => encodePV fuel pv
    | .listValueK, .vListValue (some l) =>
      (mapMList (encodePV fuel) l).map Json.arr
    | .fieldMask, .vMask (some paths) =>
      .ok (.str (String.mk (maskChars paths)))
    | .anyK, .vAny (some ub) =>
      encodeAnyBody (encodeEntries (encodeFV reg fuel)) reg ub.1 ub.2
    | _, _ => .error "kind mismatch or absent value"

/-- Modelled from the spec: the generated per-field decoder, one case per
§4.6 row, recursion depth bounded by fuel. -/
def decodeFV (reg : AnyRegistry) : Nat → FieldKind → Json →
    Except String FieldValue
  | 0, _, _ => .error "recursion depth"
  | fuel + 1, k, j =>
    match k, j with
    | .scalar sk, j => (decodeScalar sk j).map .vScalar
    | .bytes, .str s =>
      match b64Decode s.data with
      | some bs => .ok (.vBytes bs)
      | none => .error "MalformedValue"
    | .enum tbl, j => (decodeEnumVal tbl j).map .vEnum
    | .msg _, .null => .ok (.vMsg none)
    | .msg fields, .obj obj =>
      (decodeMsgObj (decodeFV reg fuel) fields obj).map
        (fun vs => .vMsg (some vs))
    | .repeated _, .null => .ok (.vList [])
    | .repeated k', .arr elems =>
      (mapMList (decodeFV reg fuel k') elems).map .vList
    | .map kk vk, .obj obj =>
      (decodeMapPairs kk (decodeFV reg fuel vk) obj).map .vMap
    | .wrapper _, .null => .ok (.vWrap none)
    | .wrapper sk, j => (decodeScalar sk j).map (fun sv => .vWrap (some sv))
    | .duration, .str s =>
      match parseDuration s.data with
      | some d => .ok (.vDuration (some d))
      | none => .error "MalformedValue"
    | .timestamp, .str s =>
      match parseTimestamp s.data with
      | some t => .ok (.vTimestamp (some t))
      | none => .error "MalformedValue"
    | .structK, .obj obj =>
      (mapMSnd (decodePV fuel) obj).map (fun fs => .vStruct (some fs))
    | .valueK, j => (decodePV fuel j).map (fun pv => .vValue (some pv))
    | .listValueK, .arr elems =>
      (mapMList (decodePV fuel) elems).map (fun l => .vListValue (some l))
    | .fieldMask, .str s => (decodeMaskStr s).map (fun ps => .vMask (some ps))
    | .anyK, j =>
      (decodeAny (fun fields obj => decodeMsgObj (decodeFV reg fuel) fields obj)
        reg j).map (fun ub => .vAny (some ub))
    | _, _ => .error "unexpected JSON value"

/-- Well-formedness of one declared field's value, given a checker for
value positions: a oneof group holds an in-range member whose value is
present and well-formed; any other kind defers to the value checker. -/
def okFieldFV (ok1 : FieldKind → FieldValue → Bool)
    (k : FieldKind) (v : FieldValue) : Bool :=
  match oneofMembersOf k, v with
  | some _, .vOneof none => true
  | some members, .vOneof (some iv) =>
    match members.get? iv.1 with
    | some m => notOneofB m.2 && isPresentFV iv.2 && ok1 m.2 iv.2
    | none => false
  | some _, _ => false
  | none, _ => ok1 k v

/-- Well-formedness of a value for a kind (with fuel): constructor shapes
match, enum values are declared under pairwise-distinct names, schemas are
sane, Duration/Timestamp values are in the mapping's range, mask paths are
canonical, `Any` values agree with the registry. -/
def okFV (reg : AnyRegistry) : Nat → FieldKind → FieldValue → Bool
  | 0, _, _ => false
  | fuel + 1, k, v =>
    match k, v with
    | .scalar sk, .vScalar sv => scalarOkB sk sv
    | .bytes, .vBytes bs => bs.all (fun x => decide (x < 256))
    | .enum tbl, .vEnum n =>
      decide ((tbl.map Prod.snd).Nodup) && tbl.any (fun e => e.1 == n)
    | .msg _, .vMsg none => true
    | .msg fields, .vMsg (some vals) =>
      schemaOkB fields && fields.length == vals.length &&
        (fields.zip vals).all (fun p => okFieldFV (okFV reg fuel) p.1.2 p.2)
    | .repeated k', .vList elems =>
      notOneofB k' &&
        elems.all (fun e => isPresentFV e && okFV reg fuel k' e)
    | .map kk vk, .vMap entries =>
      notOneofB vk && entries.all (fun e =>
        scalarOkB kk e.1 && isPresentFV e.2 && okFV reg fuel vk e.2)
    | .wrapper _, .vWrap none => true
    | .wrapper sk, .vWrap (some sv) => scalarOkB sk sv
    | .duration, .vDuration none => true
    | .duration, .vDuration (some d) =>
      decide ((0 ≤ d.1 ∧ 0 ≤ d.2) ∨ (d.1 ≤ 0 ∧ d.2 ≤ 0)) &&
        decide (d.2.natAbs < 1000000000)
    | .timestamp, .vTimestamp none => true
    | .timestamp, .vTimestamp (some t) =>
      decide (-62135596800 ≤ t.1) && decide (t.1 < 253402300800) &&
        decide (t.2 < 1000000000)
    | .structK, .vStruct none => true
    | .structK, .vStruct (some fs) => fs.all (fun p => okPV fuel p.2)
    | .valueK, .vValue none => true
    | .valueK, .vValue (some pv) => okPV fuel pv
    | .listValueK, .vListValue none => true
    | .listValueK, .vListValue (some l) => l.all (fun e => okPV fuel e)
    | .fieldMask, .vMask none => true
    | .fieldMask, .vMask (some paths) =>
      paths.all (fun p => canonSnake p.data && !(p == ""))
    | .anyK, .vAny none => true
    | .anyK, .vAny (some ub) =>
      match ub.2 with
      | .inl vals =>
        match lookupReg reg ub.1 with
        | some fields =>
          schemaOkB fields && fields.length == vals.length &&
            (fields.zip vals).all (fun p => okFieldFV (okFV reg fuel) p.1.2 p.2)
        | none => false
      | .inr bs =>
        !(lookupReg reg ub.1).isSome && bs.all (fun x => decide (x < 256))
    | _, _ => false

/-! ### Basic inversion and lookup lemmas for the message codec -/

theorem exceptMap_ok {a b : Type} (f : a → b) (x : Except String a) (y : b)
    (h : x.map f = .ok y) : ∃ w, x = .ok w ∧ y = f w := by
  cases x with
  | error e => simp [Except.map] at h
  | ok w =>
    simp [Except.map] at h
    exact ⟨w, rfl, h.symm⟩

theorem mapObj_ne_null (x : Except String (List (String × Json))) :
    x.map Json.obj ≠ .ok .null := by
  intro h
  obtain ⟨w, _, hy⟩ := exceptMap_ok _ _ _ h
  simp at hy

theorem mapArr_ne_null (x : Except String (List Json)) :
    x.map Json.arr ≠ .ok .null := by
  intro h
  obtain ⟨w, _, hy⟩ := exceptMap_ok _ _ _ h
  simp at hy

theorem isDefault_zero (k : FieldKind) (v : FieldValue)
    (h : isDefaultFV k v = true) : v = zeroFV k := by
  cases k <;> cases v <;> simp [isDefaultFV] at h <;>
    simp [zeroFV, h]

theorem notDefault_present (reg : AnyRegistry) (fuel : Nat) (k : FieldKind)
    (v : FieldValue) (hok : okFV reg fuel k v = true)
    (hd : isDefaultFV k v = false) : isPresentFV v = true := by
  cases fuel with
  | zero => simp [okFV] at hok
  | succ fuel =>
    cases v <;>
      first
      | (simp [isPresentFV]; done)
      | ((rename_i o; cases o <;>
          first
          | (simp [isPresentFV]; done)
          | ((cases k <;> simp [okFV] at hok <;>
              simp [isDefaultFV] at hd); done)); done)
      | ((cases k <;> simp [okFV] at hok); done)

theorem isValueK_iff (k : FieldKind) : isValueK k = true ↔ k = .valueK := by
  cases k <;> simp [isValueK]

theorem lookupJson_nil (x : String) : lookupJson [] x = none := rfl

theorem lookupJson_append (A B : List (String × Json)) (x : String) :
    lookupJson (A ++ B) x =
      match lookupJson A x with
      | some j => some j
      | none => lookupJson B x := by
  induction A with
  | nil => simp [lookupJson]
  | cons e A ih =>
    cases hpa : (e.1 == x) with
    | true => simp [lookupJson, List.find?_cons, hpa]
    | false =>
      simp only [List.cons_append, lookupJson, List.find?_cons, hpa] at ih ⊢
      exact ih

theorem lookupJson_eq_none (A : List (String × Json)) (x : String)
    (h : ∀ e ∈ A, e.1 ≠ x) : lookupJson A x = none := by
  rw [lookupJson]
  have hf : A.find? (fun e => e.1 == x) = none := by
    rw [List.find?_eq_none]
    intro e he
    simp [h e he]
  rw [hf]
  rfl

theorem lookupJson_mem (A : List (String × Json)) (x : String) (j : Json)
    (h : lookupJson A x = some j) : ∃ en ∈ A, en.1 = x ∧ en.2 = j := by
  rw [lookupJson] at h
  cases hf : A.find? (fun e => e.1 == x) with
  | none => rw [hf] at h; simp at h
  | some en =>
    rw [hf] at h
    simp at h
    have hp := List.find?_some hf
    have hm := List.mem_of_find?_eq_some hf
    simp at hp
    exact ⟨en, hm, hp, h⟩

theorem nodup_get?_ne {a : Type} (l : List a) (hnd : l.Nodup) :
    ∀ (t i : Nat) (x y : a), t ≠ i → l.get? t = some x → l.get? i = some y →
      x ≠ y := by
  induction l with
  | nil => intro t i x y _ ht; simp at ht
  | cons z l ih =>
    intro t i x y hne ht hi
    rw [List.nodup_cons] at hnd
    cases t with
    | zero =>
      rw [List.get?_cons_zero] at ht
      injection ht with ht
      cases i with
      | zero => exact absurd rfl hne
      | succ i =>
        rw [List.get?_cons_succ] at hi
        intro hxy
        apply hnd.1
        rw [ht, hxy]
        exact List.get?_mem hi
    | succ t =>
      rw [List.get?_cons_succ] at ht
      cases i with
      | zero =>
        rw [List.get?_cons_zero] at hi
        injection hi with hi
        intro hxy
        apply hnd.1
        rw [hi, ← hxy]
        exact List.get?_mem ht
      | succ i =>
        rw [List.get?_cons_succ] at hi
        exact ih hnd.2 t i x y (by omega) ht hi

/-! ### Oneof scanning lemmas -/

theorem anyMemberPresent_eq_false (obj : List (String × Json))
    (ms : List (String × FieldKind))
    (h : ∀ m ∈ ms, lookupJson obj (jsonName m.1) = none) :
    anyMemberPresent obj ms = false := by
  rw [anyMemberPresent, List.any_eq_false]
  intro m hm
  simp [h m hm]

theorem findOneof_absent (dec : FieldKind → Json → Except String FieldValue)
    (obj : List (String × Json)) :
    ∀ (ms : List (String × FieldKind)) (i : Nat),
      (∀ m ∈ ms, lookupJson obj (jsonName m.1) = none) →
      findOneof dec obj ms i = .ok none := by
  intro ms
  induction ms with
  | nil => intro i _; rfl
  | cons m ms ih =>
    intro i h
    have h0 := h m (List.mem_cons_self m ms)
    simp only [findOneof, h0]
    exact ih (i + 1) (fun m' hm' => h m' (List.mem_cons_of_mem _ hm'))

theorem findOneof_found (dec : FieldKind → Json → Except String FieldValue)
    (obj : List (String × Json)) :
    ∀ (ms : List (String × FieldKind)) (i0 i : Nat) (m : String × FieldKind)
      (j : Json) (v : FieldValue),
      ms.get? i = some m →
      lookupJson obj (jsonName m.1) = some j →
      (∀ t m', t ≠ i → ms.get? t = some m' →
        lookupJson obj (jsonName m'.1) = none) →
      dec m.2 j = .ok v →
      findOneof dec obj ms i0 = .ok (some (i0 + i, v)) := by
  intro ms
  induction ms with
  | nil =>
    intro i0 i m j v hget
    simp at hget
  | cons m0 ms ih =>
    intro i0 i m j v hget hlook habs hdec
    cases i with
    | zero =>
      simp at hget
      subst hget
      have hap : anyMemberPresent obj ms = false := by
        apply anyMemberPresent_eq_false
        intro m' hm'
        obtain ⟨t, ht⟩ := List.get?_of_mem hm'
        exact habs (t + 1) m' (Nat.succ_ne_zero t) (by simpa using ht)
      simp only [findOneof, hlook, hap]
      simp [hdec, Except.map]
    | succ t =>
      have h0 : lookupJson obj (jsonName m0.1) = none :=
        habs 0 m0 (by omega) (by simp)
      simp only [findOneof, h0]
      have hrec := ih (i0 + 1) t m j v (by simpa using hget) hlook
        (fun s m' hs hg => habs (s + 1) m' (by omega) (by simpa using hg)) hdec
      have harith : i0 + 1 + t = i0 + (t + 1) := by omega
      rw [harith] at hrec
      exact hrec

/-! ### Which encodings are JSON null -/

theorem encodeScalar_ne_null (sk : ScalarKind) (sv : ScalarValue) :
    encodeScalar sk sv ≠ .ok .null := by
  cases sk <;> cases sv <;> simp [encodeScalar]

theorem encodeEnumVal_ne_null (tbl : List (Int × String)) (n : Int) :
    encodeEnumVal tbl n ≠ .ok .null := by
  rw [encodeEnumVal]
  cases tbl.find? (fun e => e.1 == n) <;> simp

theorem encodePV_null (fuel : Nat) (pv : PV)
    (h : encodePV fuel pv = .ok .null) : pv = .pnull := by
  cases fuel with
  | zero => simp [encodePV] at h
  | succ fuel =>
    match pv with
    | .pnull => rfl
    | .pnum n => simp [encodePV] at h
    | .pstr s => simp [encodePV] at h
    | .pbool b => simp [encodePV] at h
    | .pstruct fs =>
      simp only [encodePV] at h
      exact absurd h (mapObj_ne_null _)
    | .plist l =>
      simp only [encodePV] at h
      exact absurd h (mapArr_ne_null _)

set_option maxHeartbeats 1600000 in
theorem encodeFV_null (reg : AnyRegistry) (fuel : Nat) (k : FieldKind)
    (v : FieldValue) (h : encodeFV reg fuel k v = .ok .null) :
    (k = .valueK ∧ v = .vValue (some .pnull)) ∨ v = zeroFV k := by
  cases fuel with
  | zero => simp [encodeFV] at h
  | succ fuel =>
    cases k <;> cases v <;>
      first
      | exact absurd h (encodeScalar_ne_null _ _)
      | exact absurd h (encodeEnumVal_ne_null _ _)
      | exact absurd h (mapObj_ne_null _)
      | exact absurd h (mapArr_ne_null _)
      | (simp [encodeFV] at h; done)
      | (rename_i o
         cases o <;>
           first
           | exact absurd h (encodeScalar_ne_null _ _)
           | exact absurd h (mapObj_ne_null _)
           | exact absurd h (mapArr_ne_null _)
           | (simp [encodeFV] at h; done)
           | (simp [zeroFV]; done)
           | (exact Or.inl ⟨rfl, by rw [encodePV_null fuel _ h]⟩)
           | (rename_i ub
              obtain ⟨url, body⟩ := ub
              cases body with
              | inl vals =>
                simp only [encodeFV, encodeAnyBody] at h
                cases hr : lookupReg reg url with
                | none => rw [hr] at h; simp at h
                | some fields =>
                  rw [hr] at h
                  obtain ⟨w, _, hy⟩ := exceptMap_ok _ _ _ h
                  simp at hy
              | inr bs => simp [encodeFV, encodeAnyBody] at h))

/-! ### Per-field and per-message round trips -/

theorem fieldEntry_main
    (enc : FieldKind → FieldValue → Except String Json)
    (dec : FieldKind → Json → Except String FieldValue)
    (ok1 : FieldKind → FieldValue → Bool)
    (hrt : ∀ k v, ok1 k v = true →
      (isDefaultFV k v = false ∨ isPresentFV v = true) →
      ∃ j, enc k v = .ok j ∧ dec k j = .ok v)
    (hnull : ∀ k v, enc k v = .ok .null →
      (k = .valueK ∧ v = .vValue (some .pnull)) ∨ v = zeroFV k)
    (f : String × FieldKind) (v : FieldValue)
    (hok : okFieldFV ok1 f.2 v = true)
    (hnd : (ownNames f).Nodup) :
    ∃ e, fieldEntries enc f.1 f.2 v = .ok e ∧
      (∀ x ∈ e, x.1 ∈ ownNames f) ∧
      ∀ obj, (∀ x ∈ ownNames f, lookupJson obj x = lookupJson e x) →
        decodeFieldEntry dec f.1 f.2 obj = .ok v := by
  cases hm : oneofMembersOf f.2 with
  | none =>
    simp only [okFieldFV, hm] at hok
    have hown : ownNames f = [jsonName f.1] := by simp [ownNames, hm]
    by_cases hd : isDefaultFV f.2 v = true
    · refine ⟨[], ?_, by simp, ?_⟩
      · simp [fieldEntries, hm, hd]
      · intro obj hobj
        have hl : lookupJson obj (jsonName f.1) = none :=
          (hobj _ (by rw [hown]; simp)).trans (lookupJson_nil _)
        simp only [decodeFieldEntry, hm, hl]
        rw [← isDefault_zero f.2 v hd]
    · rw [Bool.not_eq_true] at hd
      obtain ⟨j, hej, hdj⟩ := hrt f.2 v hok (Or.inl hd)
      refine ⟨[(jsonName f.1, j)], ?_, ?_, ?_⟩
      · simp [fieldEntries, hm, hd, hej, Except.map]
      · intro x hx
        simp at hx
        rw [hown, hx]
        simp
      · intro obj hobj
        have hl : lookupJson obj (jsonName f.1) = some j := by
          rw [hobj _ (by rw [hown]; simp)]
          simp [lookupJson]
        simp only [decodeFieldEntry, hm, hl]
        cases j with
        | null =>
          rcases hnull f.2 v hej with ⟨hk, hv⟩ | hv
          · rw [hk, hv]
            simp [isValueK]
          · have hkv : isValueK f.2 = false := by
              cases hkk : isValueK f.2
              · rfl
              · exfalso
                rw [(isValueK_iff f.2).mp hkk] at hv hd
                rw [hv] at hd
                simp [isDefaultFV, zeroFV] at hd
            rw [hkv]
            simp [hv]
        | bool b => exact hdj
        | num n => exact hdj
        | str s => exact hdj
        | arr l => exact hdj
        | obj o => exact hdj
  | some ms =>
    have hown : ownNames f = ms.map (fun m => jsonName m.1) := by
      simp [ownNames, hm]
    cases v
    case vOneof o =>
      cases o with
      | none =>
        refine ⟨[], ?_, by simp, ?_⟩
        · simp [fieldEntries, hm]
        · intro obj hobj
          have habs : ∀ m ∈ ms, lookupJson obj (jsonName m.1) = none := by
            intro m hmm'
            have hx : jsonName m.1 ∈ ownNames f := by
              rw [hown]
              exact List.mem_map_of_mem _ hmm'
            exact (hobj _ hx).trans (lookupJson_nil _)
          simp only [decodeFieldEntry, hm, findOneof_absent dec obj ms 0 habs]
          rfl
      | some iv =>
        obtain ⟨i1, mv⟩ := iv
        simp only [okFieldFV, hm] at hok
        cases hg : ms.get? i1 with
        | none => rw [hg] at hok; simp at hok
        | some m =>
          rw [hg] at hok
          simp only [Bool.and_eq_true] at hok
          obtain ⟨⟨hno, hpres⟩, hok1⟩ := hok
          obtain ⟨j, hej, hdj⟩ := hrt m.2 mv hok1 (Or.inr hpres)
          have hg' : ms[i1]? = some m := by
            rw [← List.get?_eq_getElem?]
            exact hg
          refine ⟨[(jsonName m.1, j)], ?_, ?_, ?_⟩
          · simp [fieldEntries, hm, hg, hg', hej, Except.map]
          · intro x hx
            simp at hx
            rw [hown, hx]
            exact List.mem_map_of_mem _ (List.get?_mem hg)
          · intro obj hobj
            have hmemm : jsonName m.1 ∈ ownNames f := by
              rw [hown]
              exact List.mem_map_of_mem _ (List.get?_mem hg)
            have hlm : lookupJson obj (jsonName m.1) = some j := by
              rw [hobj _ hmemm]
              simp [lookupJson]
            have habs : ∀ t m', t ≠ i1 → ms.get? t = some m' →
                lookupJson obj (jsonName m'.1) = none := by
              intro t m' htne hgt
              have hmem' : jsonName m'.1 ∈ ownNames f := by
                rw [hown]
                exact List.mem_map_of_mem _ (List.get?_mem hgt)
              rw [hobj _ hmem']
              apply lookupJson_eq_none
              intro en hen
              simp at hen
              rw [hen]
              have hnd' : (ms.map (fun m => jsonName m.1)).Nodup := hown ▸ hnd
              have h1 : (ms.map (fun m => jsonName m.1)).get? t =
                  some (jsonName m'.1) := by
                rw [List.get?_map, hgt]
                rfl
              have h2 : (ms.map (fun m => jsonName m.1)).get? i1 =
                  some (jsonName m.1) := by
                rw [List.get?_map, hg]
                rfl
              exact nodup_get?_ne _ hnd' i1 t _ _ (fun hh => htne hh.symm) h2 h1
            have hfo := findOneof_found dec obj ms 0 i1 m j mv hg hlm habs hdj
            simp only [decodeFieldEntry, hm, hfo]
            simp [Except.map]
    all_goals simp [okFieldFV, hm] at hok

theorem encodeEntries_rt
    (enc : FieldKind → FieldValue → Except String Json)
    (dec : FieldKind → Json → Except String FieldValue)
    (ok1 : FieldKind → FieldValue → Bool)
    (hrt : ∀ k v, ok1 k v = true →
      (isDefaultFV k v = false ∨ isPresentFV v = true) →
      ∃ j, enc k v = .ok j ∧ dec k j = .ok v)
    (hnull : ∀ k v, enc k v = .ok .null →
      (k = .valueK ∧ v = .vValue (some .pnull)) ∨ v = zeroFV k) :
    ∀ (fields : List (String × FieldKind)) (vals : List FieldValue),
      fields.length = vals.length →
      (fieldNames fields).Nodup →
      (fields.zip vals).all (fun p => okFieldFV ok1 p.1.2 p.2) = true →
      ∃ E, encodeEntries enc fields vals = .ok E ∧
        (∀ x ∈ E, x.1 ∈ fieldNames fields) ∧
        ∀ obj, (∀ x ∈ fieldNames fields, lookupJson obj x = lookupJson E x) →
          decodeEntries dec obj fields = .ok vals := by
  intro fields
  induction fields with
  | nil =>
    intro vals hlen _ _
    cases vals with
    | nil => exact ⟨[], rfl, by simp, fun obj _ => rfl⟩
    | cons v vs => simp at hlen
  | cons f fs ih =>
    intro vals hlen hnd hall
    cases vals with
    | nil => simp at hlen
    | cons v vs =>
      have hfn : fieldNames (f :: fs) = ownNames f ++ fieldNames fs := by
        simp [fieldNames]
      rw [hfn] at hnd
      have hndown : (ownNames f).Nodup := List.Nodup.of_append_left hnd
      have hndfs : (fieldNames fs).Nodup := List.Nodup.of_append_right hnd
      have hdisj : List.Disjoint (ownNames f) (fieldNames fs) :=
        List.disjoint_of_nodup_append hnd
      simp only [List.zip_cons_cons, List.all_cons, Bool.and_eq_true] at hall
      obtain ⟨hok1, hallrest⟩ := hall
      obtain ⟨e, hee, hen, hed⟩ :=
        fieldEntry_main enc dec ok1 hrt hnull f v hok1 hndown
      obtain ⟨E', heE, henE, hdE⟩ := ih vs (by simpa using hlen) hndfs hallrest
      refine ⟨e ++ E', ?_, ?_, ?_⟩
      · simp only [encodeEntries, hee, heE]
        rfl
      · rw [hfn]
        intro x hx
        rcases List.mem_append.mp hx with h | h
        · exact List.mem_append_left _ (hen x h)
        · exact List.mem_append_right _ (henE x h)
      · intro obj hobj
        rw [hfn] at hobj
        have hobj_own : ∀ x ∈ ownNames f,
            lookupJson obj x = lookupJson e x := by
          intro x hx
          have h1 := hobj x (List.mem_append_left _ hx)
          rw [lookupJson_append] at h1
          cases he : lookupJson e x with
          | some jj => rw [he] at h1; exact h1
          | none =>
            rw [he] at h1
            rw [h1]
            show lookupJson E' x = none
            apply lookupJson_eq_none
            intro en hen'
            intro hx1
            exact hdisj hx (hx1 ▸ henE en hen')
        have hobj_rest : ∀ x ∈ fieldNames fs,
            lookupJson obj x = lookupJson E' x := by
          intro x hx
          have h1 := hobj x (List.mem_append_right _ hx)
          rw [lookupJson_append] at h1
          cases he : lookupJson e x with
          | some jj =>
            exfalso
            obtain ⟨en, hene, hen1, _⟩ := lookupJson_mem e x jj he
            exact hdisj (hen1 ▸ hen en hene) hx
          | none => rw [he] at h1; exact h1
        simp only [decodeEntries, hed obj hobj_own, hdE obj hobj_rest]
        rfl

/-! ### Map entries round trip -/

theorem mapPairs_roundtrip (kk : ScalarKind)
    (encV : FieldValue → Except String Json)
    (decV : Json → Except String FieldValue) :
    ∀ (entries : List (ScalarValue × FieldValue)),
      (∀ e ∈ entries, scalarOkB kk e.1 = true ∧
        ∃ j, encV e.2 = .ok j ∧ decV j = .ok e.2) →
      ∃ J, encodeMapPairs encV entries = .ok J ∧
        decodeMapPairs kk decV J = .ok entries := by
  intro entries
  induction entries with
  | nil => exact fun _ => ⟨[], rfl, rfl⟩
  | cons e l ih =>
    intro h
    obtain ⟨hk, j, hej, hdj⟩ := h e (List.mem_cons_self _ _)
    obtain ⟨J, heJ, hdJ⟩ := ih (fun x hx => h x (List.mem_cons_of_mem _ hx))
    refine ⟨(keyString e.1, j) :: J, ?_, ?_⟩
    · simp only [encodeMapPairs, hej, heJ]
      rfl
    · simp only [decodeMapPairs, parseKey_keyString kk e.1 hk, hdj, hdJ]
      rfl

/-! ### Reduction helpers for the per-kind decoder -/

theorem decodeFV_scalar (reg : AnyRegistry) (fuel : Nat) (sk : ScalarKind)
    (j : Json) : decodeFV reg (fuel + 1) (.scalar sk) j =
      (decodeScalar sk j).map .vScalar := by
  cases j <;> rfl

theorem decodeFV_enum (reg : AnyRegistry) (fuel : Nat)
    (tbl : List (Int × String)) (j : Json) :
    decodeFV reg (fuel + 1) (.enum tbl) j =
      (decodeEnumVal tbl j).map .vEnum := by
  cases j <;> rfl

theorem decodeFV_valueK (reg : AnyRegistry) (fuel : Nat) (j : Json) :
    decodeFV reg (fuel + 1) .valueK j =
      (decodePV fuel j).map (fun pv => .vValue (some pv)) := by
  cases j <;> rfl

theorem decodeFV_anyK (reg : AnyRegistry) (fuel : Nat) (j : Json) :
    decodeFV reg (fuel + 1) .anyK j =
      (decodeAny
        (fun fields obj => decodeMsgObj (decodeFV reg fuel) fields obj)
        reg j).map (fun ub => .vAny (some ub)) := by
  cases j <;> rfl

theorem decodeFV_wrapper (reg : AnyRegistry) (fuel : Nat) (sk : ScalarKind)
    (j : Json) (h : j ≠ .null) :
    decodeFV reg (fuel + 1) (.wrapper sk) j =
      (decodeScalar sk j).map (fun sv => .vWrap (some sv)) := by
  cases j <;> first | exact absurd rfl h | rfl

/-! ### The round-trip law -/

set_option maxHeartbeats 3200000 in
/-- The fuel-indexed round trip: decoding the encoding of any well-formed,
non-omitted value of any §4.6 field kind reproduces the value. -/
theorem fv_roundtrip (reg : AnyRegistry) :
    ∀ (fuel : Nat) (k : FieldKind) (v : FieldValue),
      okFV reg fuel k v = true →
      (isDefaultFV k v = false ∨ isPresentFV v = true) →
      ∃ j, encodeFV reg fuel k v = .ok j ∧ decodeFV reg fuel k j = .ok v := by
  intro fuel
  induction fuel with
  | zero =>
    intro k v hok _
    simp [okFV] at hok
  | succ fuel ih =>
    have hmsgbody : ∀ (fields : List (String × FieldKind))
        (vals : List FieldValue),
        schemaOkB fields = true → fields.length = vals.length →
        (fields.zip vals).all
          (fun p => okFieldFV (okFV reg fuel) p.1.2 p.2) = true →
        ∃ E, encodeEntries (encodeFV reg fuel) fields vals = .ok E ∧
          (∀ x ∈ E, x.1 ∈ fieldNames fields) ∧
          ("@type" ∉ fieldNames fields) ∧
          decodeMsgObj (decodeFV reg fuel) fields E = .ok vals := by
      intro fields vals hs hlen hall
      simp only [schemaOkB, Bool.and_eq_true, decide_eq_true_eq] at hs
      obtain ⟨⟨hnodup, hnotype⟩, _⟩ := hs
      obtain ⟨E, hE, hnames, hdec⟩ := encodeEntries_rt (encodeFV reg fuel)
        (decodeFV reg fuel) (okFV reg fuel) ih
        (encodeFV_null reg fuel) fields vals hlen hnodup hall
      refine ⟨E, hE, hnames, by simpa using hnotype, ?_⟩
      have hcond : (E.all (fun e => decide (e.1 ∈ fieldNames fields))) =
          true := by
        rw [List.all_eq_true]
        intro e he
        simpa using hnames e he
      simp only [decodeMsgObj, hcond, if_true]
      exact hdec E (fun x _ => rfl)
    intro k v hok hdp
    cases k <;> cases v
    all_goals try (exfalso; simp [okFV] at hok; done)
    case scalar.vScalar sk sv =>
      simp only [okFV] at hok
      obtain ⟨j, hej, hdj⟩ := scalar_roundtrip sk sv hok
      refine ⟨j, ?_, ?_⟩
      · simp only [encodeFV]
        exact hej
      · rw [decodeFV_scalar]
        simp [hdj, Except.map]
    case bytes.vBytes bs =>
      simp only [okFV, List.all_eq_true, decide_eq_true_eq] at hok
      refine ⟨.str (String.mk (b64Encode bs)), rfl, ?_⟩
      have hb : b64Decode (String.mk (b64Encode bs)).data = some bs :=
        b64_roundtrip bs hok
      simp [decodeFV, hb]
    case enum.vEnum tbl n =>
      simp only [okFV, Bool.and_eq_true, decide_eq_true_eq,
        List.any_eq_true, beq_iff_eq] at hok
      obtain ⟨hnodup, e, he, hev⟩ := hok
      obtain ⟨j, hej, hdj⟩ := enum_roundtrip tbl n hnodup ⟨e, he, hev⟩
      refine ⟨j, ?_, ?_⟩
      · simp only [encodeFV]
        exact hej
      · rw [decodeFV_enum]
        simp [hdj, Except.map]
    case msg.vMsg fields o =>
      cases o with
      | none => rcases hdp with hdp | hdp <;> simp [isDefaultFV, isPresentFV] at hdp
      | some vals =>
        simp only [okFV, Bool.and_eq_true, beq_iff_eq] at hok
        obtain ⟨⟨hs, hlen⟩, hall⟩ := hok
        obtain ⟨E, hE, hnames, hntype, hdec⟩ := hmsgbody fields vals hs hlen hall
        refine ⟨.obj E, ?_, ?_⟩
        · simp only [encodeFV, hE]
          rfl
        · simp only [decodeFV, hdec]
          rfl
    case repeated.vList k' elems =>
      simp only [okFV, Bool.and_eq_true, List.all_eq_true] at hok
      obtain ⟨hno, helems⟩ := hok
      have h' : ∀ e ∈ elems, ∃ j, encodeFV reg fuel k' e = .ok j ∧
          decodeFV reg fuel k' j = .ok e := by
        intro e he
        have h2 := helems e he
        exact ih k' e h2.2 (Or.inr h2.1)
      obtain ⟨L, hL, hLd⟩ := mapMList_roundtrip _ _ elems h'
      refine ⟨.arr L, ?_, ?_⟩
      · simp only [encodeFV, hL]
        rfl
      · simp only [decodeFV, hLd]
        rfl
    case map.vMap kk vk entries =>
      simp only [okFV, Bool.and_eq_true, List.all_eq_true] at hok
      obtain ⟨hno, hentries⟩ := hok
      have h' : ∀ e ∈ entries, scalarOkB kk e.1 = true ∧
          ∃ j, encodeFV reg fuel vk e.2 = .ok j ∧
            decodeFV reg fuel vk j = .ok e.2 := by
        intro e he
        have h2 := hentries e he
        simp only [Bool.and_eq_true] at h2
        exact ⟨h2.1.1, ih vk e.2 h2.2 (Or.inr h2.1.2)⟩
      obtain ⟨J, hJ, hJd⟩ := mapPairs_roundtrip kk _ _ entries h'
      refine ⟨.obj J, ?_, ?_⟩
      · simp only [encodeFV, hJ]
        rfl
      · simp only [decodeFV, hJd]
        rfl
    case wrapper.vWrap sk o =>
      cases o with
      | none => exact ⟨.null, rfl, rfl⟩
      | some sv =>
        simp only [okFV] at hok
        obtain ⟨j, hej, hdj⟩ := scalar_roundtrip sk sv hok
        refine ⟨j, ?_, ?_⟩
        · simp only [encodeFV]
          exact hej
        · have hne : j ≠ .null := by
            intro hj
            rw [hj] at hej
            exact encodeScalar_ne_null sk sv hej
          rw [decodeFV_wrapper reg fuel sk j hne]
          simp [hdj, Except.map]
    case duration.vDuration o =>
      cases o with
      | none => rcases hdp with hdp | hdp <;> simp [isDefaultFV, isPresentFV] at hdp
      | some d =>
        obtain ⟨ds, dn⟩ := d
        simp only [okFV, Bool.and_eq_true, decide_eq_true_eq] at hok
        obtain ⟨hsign, hn⟩ := hok
        refine ⟨.str (String.mk (durationChars ds dn)), rfl, ?_⟩
        have hp : parseDuration (String.mk (durationChars ds dn)).data =
            some (ds, dn) := duration_roundtrip ds dn hsign hn
        simp [decodeFV, hp]
    case timestamp.vTimestamp o =>
      cases o with
      | none => rcases hdp with hdp | hdp <;> simp [isDefaultFV, isPresentFV] at hdp
      | some t =>
        obtain ⟨ts, tn⟩ := t
        simp only [okFV, Bool.and_eq_true, decide_eq_true_eq] at hok
        obtain ⟨⟨hlo, hhi⟩, hn⟩ := hok
        refine ⟨.str (String.mk (tsChars ts tn)), rfl, ?_⟩
        have hp : parseTimestamp (String.mk (tsChars ts tn)).data =
            some (ts, tn) := timestamp_roundtrip ts tn hlo hhi hn
        simp [decodeFV, hp]
    case structK.vStruct o =>
      cases o with
      | none => rcases hdp with hdp | hdp <;> simp [isDefaultFV, isPresentFV] at hdp
      | some fs =>
        simp only [okFV, List.all_eq_true] at hok
        obtain ⟨bl, hB, hBd⟩ := mapMSnd_roundtrip (encodePV fuel)
          (decodePV fuel) fs (fun p hp => pv_roundtrip fuel p.2 (hok p hp))
        refine ⟨.obj bl, ?_, ?_⟩
        · simp only [encodeFV, hB]
          rfl
        · simp only [decodeFV, hBd]
          rfl
    case valueK.vValue o =>
      cases o with
      | none => rcases hdp with hdp | hdp <;> simp [isDefaultFV, isPresentFV] at hdp
      | some pv =>
        simp only [okFV] at hok
        obtain ⟨j, hej, hdj⟩ := pv_roundtrip fuel pv hok
        refine ⟨j, ?_, ?_⟩
        · simp only [encodeFV]
          exact hej
        · rw [decodeFV_valueK]
          simp [hdj, Except.map]
    case listValueK.vListValue o =>
      cases o with
      | none => rcases hdp with hdp | hdp <;> simp [isDefaultFV, isPresentFV] at hdp
      | some l =>
        simp only [okFV, List.all_eq_true] at hok
        obtain ⟨L, hL, hLd⟩ := mapMList_roundtrip (encodePV fuel)
          (decodePV fuel) l (fun e he => pv_roundtrip fuel e (hok e he))
        refine ⟨.arr L, ?_, ?_⟩
        · simp only [encodeFV, hL]
          rfl
        · simp only [decodeFV, hLd]
          rfl
    case fieldMask.vMask o =>
      cases o with
      | none => rcases hdp with hdp | hdp <;> simp [isDefaultFV, isPresentFV] at hdp
      | some paths =>
        simp only [okFV, List.all_eq_true, Bool.and_eq_true] at hok
        have h' : ∀ p ∈ paths, canonSnake p.data = true ∧ p ≠ "" := by
          intro p hp
          have h2 := hok p hp
          refine ⟨h2.1, ?_⟩
          have h3 := h2.2
          simpa using h3
        refine ⟨.str (String.mk (maskChars paths)), rfl, ?_⟩
        have hmk := mask_roundtrip paths h'
        simp [decodeFV, hmk, Except.map]
    case anyK.vAny o =>
      cases o with
      | none => rcases hdp with hdp | hdp <;> simp [isDefaultFV, isPresentFV] at hdp
      | some ub =>
        obtain ⟨url, body⟩ := ub
        cases body with
        | inl vals =>
          cases hr : lookupReg reg url with
          | none =>
            simp only [okFV] at hok
            rw [hr] at hok
            simp at hok
          | some fields =>
            simp only [okFV] at hok
            rw [hr] at hok
            simp only [Bool.and_eq_true, beq_iff_eq] at hok
            obtain ⟨⟨hs, hlen⟩, hall⟩ := hok
            obtain ⟨E, hE, hnames, hntype, hdec⟩ :=
              hmsgbody fields vals hs hlen hall
            refine ⟨.obj (("@type", .str url) :: E), ?_, ?_⟩
            · simp only [encodeFV, encodeAnyBody, hr, hE]
              rfl
            · rw [decodeFV_anyK]
              have hty : lookupJson (("@type", Json.str url) :: E) "@type" =
                  some (.str url) := by
                simp [lookupJson, List.find?_cons]
              have hfil : (("@type", Json.str url) :: E).filter
                  (fun e => !(e.1 == "@type")) = E := by
                have h1 : E.filter (fun e => !(e.1 == "@type")) = E := by
                  rw [List.filter_eq_self]
                  intro e he
                  have hne : e.1 ≠ "@type" :=
                    fun hh => hntype (hh ▸ hnames e he)
                  simp [hne]
                simp [List.filter_cons, h1]
              simp only [decodeAny, hty, hr, hfil, hdec]
              rfl
        | inr bs =>
          simp only [okFV, Bool.and_eq_true, List.all_eq_true,
            decide_eq_true_eq, Bool.not_eq_true'] at hok
          obtain ⟨hrn, hbs⟩ := hok
          have hr : lookupReg reg url = none := by
            cases hh : lookupReg reg url
            · rfl
            · rw [hh] at hrn; simp at hrn
          refine ⟨.obj [("@type", .str url),
            ("value", .str (String.mk (b64Encode bs)))], rfl, ?_⟩
          rw [decodeFV_anyK]
          have hty : lookupJson [("@type", Json.str url),
              ("value", Json.str (String.mk (b64Encode bs)))] "@type" =
              some (.str url) := by
            simp [lookupJson, List.find?_cons]
          have hb : b64Decode (String.mk (b64Encode bs)).data = some bs :=
            b64_roundtrip bs hbs
          have hneq : (("value" : String) == "@type") = false := by decide
          have hfil : ([("@type", Json.str url),
              ("value", Json.str (String.mk (b64Encode bs)))].filter
              (fun e => !(e.1 == "@type"))) =
              [("value", Json.str (String.mk (b64Encode bs)))] := by
            simp [List.filter_cons, hneq]
          simp only [decodeAny, hty, hr, hfil]
          simp [hb, Except.map]

/-! ### C6: the round-trip claim and a concrete witness -/

/-- C6: Under the default configuration, for every well-formed message value
over any combination of the §4.6 field kinds, decoding the generated
encoding yields a value equal to the original
(`decode(encode(value)) == value`). -/
theorem decode_encode_roundtrip (reg : AnyRegistry) (fuel : Nat)
    (fields : List (String × FieldKind)) (vals : List FieldValue)
    (hok : okFV reg fuel (.msg fields) (.vMsg (some vals)) = true) :
    ∃ j, encodeFV reg fuel (.msg fields) (.vMsg (some vals)) = .ok j ∧
      decodeFV reg fuel (.msg fields) j = .ok (.vMsg (some vals)) :=
  fv_roundtrip reg fuel _ _ hok (Or.inr rfl)

/-- A registry with one resolvable `Any` type. -/
def rtReg : AnyRegistry :=
  [("type.googleapis.com/t.Inner", [("a", .scalar .sI32)])]

/-- A schema exercising every §4.6 field kind. -/
def rtFields : List (String × FieldKind) :=
  [("b_field", .scalar .sBool),
   ("i32_field", .scalar .sI32),
   ("i64_field", .scalar .sI64),
   ("str_field", .scalar .sStr),
   ("bytes_field", .bytes),
   ("enum_field", .enum [(0, "E_ZERO"), (1, "E_ONE")]),
   ("msg_field", .msg [("a", .scalar .sI32)]),
   ("rep_field", .repeated (.scalar .sI32)),
   ("map_field", .map .sStr (.scalar .sI32)),
   ("choice", .oneof [("ca", .scalar .sI32), ("cb", .scalar .sStr)]),
   ("wrap_field", .wrapper .sI32),
   ("dur_field", .duration),
   ("ts_field", .timestamp),
   ("struct_field", .structK),
   ("value_field", .valueK),
   ("list_value_field", .listValueK),
   ("mask_field", .fieldMask),
   ("any_field", .anyK)]

/-- A value for each field of `rtFields`. -/
def rtVals : List FieldValue :=
  [.vScalar (.b true),
   .vScalar (.i 42),
   .vScalar (.i (-7)),
   .vScalar (.s "hello"),
   .vBytes [0, 255, 16],
   .vEnum 1,
   .vMsg (some [.vScalar (.i 5)]),
   .vList [.vScalar (.i 1), .vScalar (.i 2)],
   .vMap [(.s "k", .vScalar (.i 3))],
   .vOneof (some (1, .vScalar (.s "sel"))),
   .vWrap (some (.i 9)),
   .vDuration (some (3, 500000000)),
   .vTimestamp (some (0, 1)),
   .vStruct (some [("x", .pnum 2)]),
   .vValue (some (.pstruct [("y", .pbool false)])),
   .vListValue (some [.pnull, .pnum 1]),
   .vMask (some ["foo_bar", "baz"]),
   .vAny (some ("type.googleapis.com/t.Inner", .inl [.vScalar (.i 8)]))]

/-- C6 witness: the round trip holds for a concrete message exercising
every §4.6 field kind. -/
theorem decode_encode_roundtrip_witness :
    okFV rtReg 4 (.msg rtFields) (.vMsg (some rtVals)) = true ∧
    ∃ j, encodeFV rtReg 4 (.msg rtFields) (.vMsg (some rtVals)) = .ok j ∧
      decodeFV rtReg 4 (.msg rtFields) j = .ok (.vMsg (some rtVals)) :=
  ⟨by decide, decode_encode_roundtrip rtReg 4 rtFields rtVals (by decide)⟩

end Pbjson